import Mathlib

/-!
Verification of the Layout Type Graph engine
(`lib/DataLayoutAnalysis/DLATypeSystem.cpp` and
`include/revng-c/DataLayoutAnalysis/DLATypeSystem.h`, namespace `dla`).

Shallow embedding conventions:
* A `LayoutTypeSystemNode` is identified by its immutable `ID` (a `Nat`);
  the graph stores node data in a total map `nodes : Nat → LayoutTypeSystemNode`
  and the set of live ids in `Layouts : Finset Nat`.  The C++ `ID` field is
  the key of this map, so it is not repeated inside the node record.
* The C++ adjacency containers `std::set<Link>` with
  `Link = std::pair<LayoutTypeSystemNode *, const TypeLinkTag *>` are modelled
  as `Finset (Nat × TypeLinkTag)`.  The C++ code deduplicates value-equal tags
  in the set `LinkTags` and stores tag *pointers* in links, so pointer equality
  of tags coincides with value equality; links are therefore compared by value.
* `uint64_t` sizes are modelled as `Nat` (only `max` and comparisons are used),
  `int64_t` offsets as `Int`.
* A `revng_assert`/`revng_unreachable` failure aborts the process, so an
  operation that can fail an assertion returns `Option`, `none` meaning abort.
  Dereferencing a node pointer that is not live (dangling after
  `removeNode`/`mergeNodes`) is undefined behaviour in the C++ and has no
  defined result state; it is likewise modelled as `none`.
-/

set_option maxRecDepth 40000

namespace DLA

/-- Embedding of `dla::OffsetExpression`: a byte offset plus per-dimension
strides and optional trip counts (`DLATypeSystem.h`). -/
structure OffsetExpression where
  Offset : Int
  Strides : List Int
  TripCounts : List (Option Int)
deriving DecidableEq, Repr

/-- The `OffsetExpression(int64_t Off)` constructor: offset with empty
strides/trip counts. -/
def OffsetExpression.ofOffset (Off : Int) : OffsetExpression :=
  ⟨Off, [], []⟩

/-- Embedding of `dla::TypeLinkTag`: the kind of a link, carrying an
`OffsetExpression` only in the `LK_Instance` case (the other constructors of
the C++ class always pair the kind with an empty `OffsetExpression`, which is
never read for them). -/
inductive TypeLinkTag where
  | LK_Inheritance
  | LK_Equality
  | LK_Instance (OE : OffsetExpression)
  | LK_Pointer
deriving DecidableEq, Repr

/-- Embedding of `dla::InterferingChildrenInfo`. -/
inductive InterferingChildrenInfo where
  | Unknown
  | AllChildrenAreInterfering
  | AllChildrenAreNonInterfering
deriving DecidableEq, Repr

/-- An adjacency entry `(neighbor id, tag)`, embedding
`LayoutTypeSystemNode::Link`. -/
abbrev Link := Nat × TypeLinkTag

/-- Embedding of `dla::LayoutTypeSystemNode` minus the `ID` field (which is the
key under which the graph stores the node). -/
structure LayoutTypeSystemNode where
  Successors : Finset Link
  Predecessors : Finset Link
  Size : Nat
  InterferingInfo : InterferingChildrenInfo
deriving DecidableEq

/-- The node produced by `LayoutTypeSystemNode(uint64_t I)`: empty adjacency,
`Size` zero-initialised, `InterferingInfo = Unknown`. -/
def emptyNode : LayoutTypeSystemNode :=
  { Successors := ∅, Predecessors := ∅, Size := 0, InterferingInfo := .Unknown }

/-!
## VectEqClasses (compressed union-find with a removed sentinel)

Embedding of `dla::VectEqClasses`, which derives from `llvm::IntEqClasses`.
The LLVM class keeps a vector `EC` with `EC[i] <= i`, `EC[i] == i` iff `i` is
the leader of its class; it is modelled as a total function `EC : Nat → Nat`
(indices `>= NElems` are unused and kept at their own value by the
operations).
-/

structure VectEqClasses where
  EC : Nat → Nat
  NumClasses : Nat
  RemovedID : Option Nat
  NElems : Nat

/-- `llvm::IntEqClasses::findLeader`: follow `EC` until a fixpoint.  The C++
loop runs while `EC[x] != x`; it terminates because `EC[x] <= x` always holds,
so each step strictly decreases the index and `x` itself bounds the number of
steps.  The recursion is made structural on that fuel bound; the `ec x < x`
guard agrees with the C++ test `EC[x] != x` whenever `EC[x] <= x`. -/
def findLeaderFuel (ec : Nat → Nat) : Nat → Nat → Nat
  | 0, x => x
  | fuel + 1, x => if ec x < x then findLeaderFuel ec fuel (ec x) else x

def VectEqClasses.findLeader (v : VectEqClasses) (x : Nat) : Nat :=
  findLeaderFuel v.EC x x

/-- `llvm::IntEqClasses::join`: connect the two classes by pointing the larger
leader at the smaller one.  The C++ loop additionally performs incremental
path compression along the way; compression never changes the induced
partition, and only the partition is observable through `findLeader`,
`compress` and the `VectEqClasses` queries, so it is omitted here. -/
def VectEqClasses.join (v : VectEqClasses) (a b : Nat) : VectEqClasses :=
  let la := v.findLeader a
  let lb := v.findLeader b
  if la = lb then v
  else { v with EC := Function.update v.EC (max la lb) (min la lb) }

/-- `VectEqClasses::growBy1`: one more element in its own singleton class
(`IntEqClasses::grow` initialises `EC[new] = new`). -/
def VectEqClasses.growBy1 (v : VectEqClasses) : VectEqClasses :=
  { v with NElems := v.NElems + 1, EC := Function.update v.EC v.NElems v.NElems }

/-- `VectEqClasses::remove` (`DLATypeSystem.cpp`): join with the removed
sentinel class, or designate the argument as the sentinel if none exists. -/
def VectEqClasses.remove (v : VectEqClasses) (A : Nat) : VectEqClasses :=
  match v.RemovedID with
  | some r => v.join A r
  | none => { v with RemovedID := some A }

/-- `VectEqClasses::lookupEqClass`, i.e. `IntEqClasses::operator[]` (valid on
a compressed map). -/
def VectEqClasses.lookupEqClass (v : VectEqClasses) (ID : Nat) : Nat :=
  v.EC ID

def VectEqClasses.getNumClasses (v : VectEqClasses) : Nat :=
  v.NumClasses

/-- `VectEqClasses::isRemoved` (`DLATypeSystem.cpp`). -/
def VectEqClasses.isRemoved (v : VectEqClasses) (ID : Nat) : Bool :=
  match v.RemovedID with
  | none => false
  | some r =>
    if v.getNumClasses = 0 then decide (v.findLeader ID = v.findLeader r)
    else decide (v.lookupEqClass ID = v.lookupEqClass r)

/-- One iteration of the `llvm::IntEqClasses::compress` loop:
`EC[i] = (EC[i] == i) ? NumClasses++ : EC[EC[i]]`, on the pair
`(EC, NumClasses)`. -/
def compressStep (p : (Nat → Nat) × Nat) (i : Nat) : (Nat → Nat) × Nat :=
  if p.1 i = i then (Function.update p.1 i p.2, p.2 + 1)
  else (Function.update p.1 i (p.1 (p.1 i)), p.2)

/-- `llvm::IntEqClasses::compress`: no-op when already compressed; otherwise
run the loop above for `i` ascending over all elements.  When `i` is not a
leader, `EC[i] < i` has already been rewritten to its class number. -/
def VectEqClasses.compress (v : VectEqClasses) : VectEqClasses :=
  if v.NumClasses ≠ 0 then v
  else
    let p := (List.range v.NElems).foldl compressStep (v.EC, 0)
    { v with EC := p.1, NumClasses := p.2 }

/-- The `VectEqClasses` of a freshly constructed `LayoutTypeSystem`. -/
def VectEqClasses.empty : VectEqClasses :=
  { EC := fun i => i, NumClasses := 0, RemovedID := none, NElems := 0 }

/-!
## The graph container
-/

/-- Embedding of `dla::LayoutTypeSystem`: live node ids, node data, the
deduplicated tag set and the union-find. -/
structure LayoutTypeSystem where
  NID : Nat
  Layouts : Finset Nat
  nodes : Nat → LayoutTypeSystemNode
  LinkTags : Finset TypeLinkTag
  EqClasses : VectEqClasses

/-- Successor set of node `x`. -/
def succs (st : LayoutTypeSystem) (x : Nat) : Finset Link :=
  (st.nodes x).Successors

/-- Predecessor set of node `x`. -/
def preds (st : LayoutTypeSystem) (x : Nat) : Finset Link :=
  (st.nodes x).Predecessors

/-- Update the data of one node in place. -/
def updNode (st : LayoutTypeSystem) (x : Nat)
    (f : LayoutTypeSystemNode → LayoutTypeSystemNode) : LayoutTypeSystem :=
  { st with nodes := fun z => if z = x then f (st.nodes z) else st.nodes z }

/-- Update the data of every node in `s` in place (the simultaneous form of a
C++ loop whose iterations touch pairwise distinct nodes, or are no-ops on
revisit). -/
def updNodesIn (st : LayoutTypeSystem) (s : Finset Nat)
    (f : LayoutTypeSystemNode → LayoutTypeSystemNode) : LayoutTypeSystem :=
  { st with nodes := fun z => if z ∈ s then f (st.nodes z) else st.nodes z }

/-- A freshly constructed `LayoutTypeSystem`. -/
def initState : LayoutTypeSystem :=
  { NID := 0, Layouts := ∅, nodes := fun _ => emptyNode, LinkTags := ∅,
    EqClasses := .empty }

/-- `LayoutTypeSystem::createArtificialLayoutType`: allocate a node under the
fresh id `NID`, bump `NID`, grow the union-find by a singleton class and
register the node in `Layouts` (whose insertion success is asserted). -/
def createArtificialLayoutType (st : LayoutTypeSystem) :
    Option (Nat × LayoutTypeSystem) :=
  if st.NID ∈ st.Layouts then none
  else some (st.NID,
    { NID := st.NID + 1
      Layouts := insert st.NID st.Layouts
      nodes := fun z => if z = st.NID then emptyNode else st.nodes z
      LinkTags := st.LinkTags
      EqClasses := st.EqClasses.growBy1 })

/-- `LayoutTypeSystem::addLink` (`DLATypeSystem.h`): no-op returning
`(nullptr, false)` on null or equal endpoints; otherwise both endpoints are
asserted live, the tag is deduplicated into `LinkTags`, `(Tgt, T)` is inserted
into `Src->Successors` and `(Src, T)` into `Tgt->Predecessors`, and the flag
records whether either insertion was new.  `none` models the liveness
assertion failing. -/
def addLink (st : LayoutTypeSystem) (Src Tgt : Option Nat) (Tag : TypeLinkTag) :
    Option ((Option TypeLinkTag × Bool) × LayoutTypeSystem) :=
  match Src, Tgt with
  | none, _ => some ((none, false), st)
  | _, none => some ((none, false), st)
  | some s, some t =>
    if s = t then some ((none, false), st)
    else if s ∈ st.Layouts ∧ t ∈ st.Layouts then
      let New : Bool := decide ((t, Tag) ∉ succs st s) || decide ((s, Tag) ∉ preds st t)
      let st1 := { st with LinkTags := insert Tag st.LinkTags }
      let st2 := updNode st1 s
        (fun nd => { nd with Successors := insert (t, Tag) nd.Successors })
      let st3 := updNode st2 t
        (fun nd => { nd with Predecessors := insert (s, Tag) nd.Predecessors })
      some ((some Tag, New), st3)
    else none

/-- `LayoutTypeSystem::addEqualityLink`: insert the equality tag in both
directions and assert that the two insertions report identical results. -/
def addEqualityLink (st : LayoutTypeSystem) (Src Tgt : Option Nat) :
    Option ((Option TypeLinkTag × Bool) × LayoutTypeSystem) :=
  match addLink st Src Tgt .LK_Equality with
  | none => none
  | some (fwd, st1) =>
    match addLink st1 Tgt Src .LK_Equality with
    | none => none
    | some (bwd, st2) => if fwd = bwd then some (fwd, st2) else none

/-- `LayoutTypeSystem::addInheritanceLink`. -/
def addInheritanceLink (st : LayoutTypeSystem) (Src Tgt : Option Nat) :
    Option ((Option TypeLinkTag × Bool) × LayoutTypeSystem) :=
  addLink st Src Tgt .LK_Inheritance

/-- `LayoutTypeSystem::addInstanceLink`. -/
def addInstanceLink (st : LayoutTypeSystem) (Src Tgt : Option Nat)
    (OE : OffsetExpression) :
    Option ((Option TypeLinkTag × Bool) × LayoutTypeSystem) :=
  addLink st Src Tgt (.LK_Instance OE)

/-- `LayoutTypeSystem::addPointerLink`. -/
def addPointerLink (st : LayoutTypeSystem) (Src Tgt : Option Nat) :
    Option ((Option TypeLinkTag × Bool) × LayoutTypeSystem) :=
  addLink st Src Tgt .LK_Pointer

/-!
## mergeNodes / removeNode / moveEdge
-/

/-- The rewrite performed by the extract/reinsert loops of `fixPredSucc`
(`DLATypeSystem.cpp`): every entry whose neighbor is `From` is re-keyed to
`Into`, the reinsertion deduplicating against an existing `(Into, tag)`
entry. -/
def redirectTo (From Into : Nat) (s : Finset Link) : Finset Link :=
  s.image (fun p => if p.1 = From then (Into, p.2) else p)

/-- The `RemoveSelfEdges` lambda of `fixPredSucc`: erase every entry whose
neighbor is `From` or `Into`. -/
def stripRefs (From Into : Nat) (s : Finset Link) : Finset Link :=
  s.filter (fun p => p.1 ≠ From ∧ p.1 ≠ Into)

/-- `fixPredSucc` (`DLATypeSystem.cpp`), as the four sequential phases of the
C++ function:
1. for each neighbor in `From->Successors`, re-key the `(From, ·)` entries of
   its `Predecessors` to `Into`;
2. for each neighbor in the (possibly already rewritten) `From->Predecessors`,
   re-key the `(From, ·)` entries of its `Successors` to `Into`;
3. union `From`'s current adjacency sets into `Into`'s;
4. erase from `Into`'s adjacency sets every entry pointing at `From` or `Into`.
Each C++ loop iteration touches a set distinct from the one being iterated,
and revisiting a neighbor is a no-op, so a phase is faithfully expressed as a
simultaneous per-node update over the neighbors recorded at its start. -/
def fixPredSucc (From Into : Nat) (st : LayoutTypeSystem) : LayoutTypeSystem :=
  let N1 := (succs st From).image Prod.fst
  let st1 := updNodesIn st N1 (fun nd =>
    { nd with Predecessors := redirectTo From Into nd.Predecessors })
  let N2 := (preds st1 From).image Prod.fst
  let st2 := updNodesIn st1 N2 (fun nd =>
    { nd with Successors := redirectTo From Into nd.Successors })
  let st3 := updNode st2 Into (fun nd =>
    { nd with Predecessors := nd.Predecessors ∪ preds st2 From,
              Successors := nd.Successors ∪ succs st2 From })
  updNode st3 Into (fun nd =>
    { nd with Predecessors := stripRefs From Into nd.Predecessors,
              Successors := stripRefs From Into nd.Successors })

/-- One iteration of the `mergeNodes` loop (`DLATypeSystem.cpp`): assert
`From != Into`, require `From` live (a dead `From` would be a dangling
dereference), join the equivalence classes, run `fixPredSucc`, reset
`Into->InterferingInfo`, assert
`not Into->Size or From->Size <= Into->Size`, set
`Into->Size = max(Into->Size, From->Size)` and erase `From` from `Layouts`
(the erasure success is asserted). -/
def mergeStep (st : LayoutTypeSystem) (Into From : Nat) : Option LayoutTypeSystem :=
  if From = Into then none
  else if From ∉ st.Layouts then none
  else
    let st1 := { st with EqClasses := st.EqClasses.join Into From }
    let st2 := fixPredSucc From Into st1
    let st3 := updNode st2 Into (fun nd => { nd with InterferingInfo := .Unknown })
    if (st3.nodes Into).Size = 0 ∨ (st3.nodes From).Size ≤ (st3.nodes Into).Size then
      let st4 := updNode st3 Into (fun nd =>
        { nd with Size := max (st3.nodes Into).Size (st3.nodes From).Size })
      some { st4 with Layouts := st4.Layouts.erase From }
    else none

def mergeLoop (Into : Nat) : LayoutTypeSystem → List Nat → Option LayoutTypeSystem
  | st, [] => some st
  | st, From :: rest =>
    match mergeStep st Into From with
    | none => none
    | some st1 => mergeLoop Into st1 rest

/-- `LayoutTypeSystem::mergeNodes`: assert `ToMerge.size() > 1`, take the head
as the surviving node (required live: its `ID` is read immediately) and merge
every other node into it in order. -/
def mergeNodes (st : LayoutTypeSystem) (ToMerge : List Nat) : Option LayoutTypeSystem :=
  match ToMerge with
  | [] => none
  | [_] => none
  | Into :: rest => if Into ∈ st.Layouts then mergeLoop Into st rest else none

/-- `LayoutTypeSystem::removeNode`: join the node's class with the removed
sentinel, erase the mirrored `(ToRemove, ·)` entries from the predecessor sets
of its successors and from the successor sets of its (possibly already
updated) predecessors, and drop the node from `Layouts`.  Removing a non-live
node is a dangling dereference, modelled as `none`. -/
def removeNode (st : LayoutTypeSystem) (n : Nat) : Option LayoutTypeSystem :=
  if n ∉ st.Layouts then none
  else
    let st0 := { st with EqClasses := st.EqClasses.remove n }
    let N1 := (succs st0 n).image Prod.fst
    let st1 := updNodesIn st0 N1 (fun nd =>
      { nd with Predecessors := nd.Predecessors.filter (fun p => p.1 ≠ n) })
    let N2 := (preds st1 n).image Prod.fst
    let st2 := updNodesIn st1 N2 (fun nd =>
      { nd with Successors := nd.Successors.filter (fun p => p.1 ≠ n) })
    some { st2 with Layouts := st2.Layouts.erase n }

/-- `moveEdgeWithoutSumming` (`DLATypeSystem.cpp`): move the successor entry
from `OldSrc` to `NewSrc` (assert it was present), then re-key the mirrored
predecessor entry of the target from `OldSrc` to `NewSrc` (assert it was
present).  All three nodes are dereferenced, so they must be live. -/
def moveEdgeWithoutSumming (st : LayoutTypeSystem) (OldSrc NewSrc : Nat)
    (Edge : Link) : Option LayoutTypeSystem :=
  if OldSrc ∉ st.Layouts ∨ NewSrc ∉ st.Layouts ∨ Edge.1 ∉ st.Layouts then none
  else if Edge ∉ succs st OldSrc then none
  else
    let st1 := updNode st OldSrc (fun nd =>
      { nd with Successors := nd.Successors.erase Edge })
    let st2 := updNode st1 NewSrc (fun nd =>
      { nd with Successors := insert Edge nd.Successors })
    if (OldSrc, Edge.2) ∉ preds st2 Edge.1 then none
    else
      some (updNode st2 Edge.1 (fun nd =>
        { nd with Predecessors :=
            insert (NewSrc, Edge.2) (nd.Predecessors.erase (OldSrc, Edge.2)) }))

/-- `LayoutTypeSystem::moveEdge`: return silently on a null source; with
`OffsetToSum == 0` delegate to `moveEdgeWithoutSumming`; otherwise extract the
successor edge from `OldSrc` (assert it was present), insert a rebased link
from `NewSrc` to the target through the `addInstanceLink`/`addInheritanceLink`
path (an `LK_Instance` tag gets `Offset += OffsetToSum`, asserted
non-negative; an `LK_Inheritance` tag becomes `LK_Instance(OffsetToSum)` when
`OffsetToSum > 0`; `LK_Equality`/`LK_Pointer` hit `revng_unreachable`), and
finally extract the stale `(OldSrc, tag)` entry from the target's predecessors
(no assertion on that last extraction). -/
def moveEdge (st : LayoutTypeSystem) (OldSrc NewSrc : Option Nat) (Edge : Link)
    (OffsetToSum : Int) : Option LayoutTypeSystem :=
  match OldSrc, NewSrc with
  | none, _ => some st
  | _, none => some st
  | some o, some n =>
    if OffsetToSum = 0 then moveEdgeWithoutSumming st o n Edge
    else
      if o ∉ st.Layouts ∨ Edge.1 ∉ st.Layouts then none
      else if Edge ∉ succs st o then none
      else
        let Tgt := Edge.1
        let st1 := updNode st o (fun nd =>
          { nd with Successors := nd.Successors.erase Edge })
        let added : Option LayoutTypeSystem :=
          match Edge.2 with
          | .LK_Inheritance =>
            if 0 < OffsetToSum then
              (addInstanceLink st1 (some n) (some Tgt)
                (.ofOffset OffsetToSum)).map (·.2)
            else
              (addInheritanceLink st1 (some n) (some Tgt)).map (·.2)
          | .LK_Instance OE =>
            let NewOE : OffsetExpression := { OE with Offset := OE.Offset + OffsetToSum }
            if NewOE.Offset < 0 then none
            else (addInstanceLink st1 (some n) (some Tgt) NewOE).map (·.2)
          | _ => none
        match added with
        | none => none
        | some st2 =>
          some (updNode st2 Tgt (fun nd =>
            { nd with Predecessors := nd.Predecessors.erase (o, Edge.2) }))

/-!
## verifyLeafs and the edge predicates it uses
-/

/-- `dla::isPointerEdge` on a link value. -/
def isPointerEdge (p : Link) : Bool :=
  match p.2 with
  | .LK_Pointer => true
  | _ => false

/-- `dla::isLeaf<LK_All>` (`DLATypeSystem.h`): the view filtered through
`hasNonPointerLinkKind<LK_All>` has no children, i.e. the node has no
successor edge whose kind differs from `LK_Pointer`. -/
def isLeaf (nd : LayoutTypeSystemNode) : Bool :=
  decide (∀ p ∈ nd.Successors, isPointerEdge p = true)

/-- `LayoutTypeSystem::verifyLeafs`: fails iff some live node is a leaf (in
the `isLeaf<LK_All>` sense) of size `0`. -/
def verifyLeafs (st : LayoutTypeSystem) : Bool :=
  decide (∀ n ∈ st.Layouts, isLeaf (st.nodes n) = true → (st.nodes n).Size ≠ 0)

/-!
## The mutation API as a step relation

`Op` enumerates the public mutation operations of the engine; `step` runs one
of them, `none` meaning an assertion failure / undefined behaviour, and
`runOps` runs a whole call sequence from a fresh graph.
-/

inductive Op where
  | createN
  | addEq (Src Tgt : Option Nat)
  | addInh (Src Tgt : Option Nat)
  | addInst (Src Tgt : Option Nat) (OE : OffsetExpression)
  | addPtr (Src Tgt : Option Nat)
  | mergeN (ToMerge : List Nat)
  | removeN (n : Nat)
  | moveE (OldSrc NewSrc : Option Nat) (Edge : Link) (OffsetToSum : Int)

def step (st : LayoutTypeSystem) : Op → Option LayoutTypeSystem
  | .createN => (createArtificialLayoutType st).map (·.2)
  | .addEq a b => (addEqualityLink st a b).map (·.2)
  | .addInh a b => (addInheritanceLink st a b).map (·.2)
  | .addInst a b oe => (addInstanceLink st a b oe).map (·.2)
  | .addPtr a b => (addPointerLink st a b).map (·.2)
  | .mergeN l => mergeNodes st l
  | .removeN n => removeNode st n
  | .moveE o n e d => moveEdge st o n e d

def runFrom (st : LayoutTypeSystem) : List Op → Option LayoutTypeSystem
  | [] => some st
  | op :: rest =>
    match step st op with
    | none => none
    | some st1 => runFrom st1 rest

/-- Run a sequence of mutation operations on a freshly constructed graph. -/
def runOps (l : List Op) : Option LayoutTypeSystem :=
  runFrom initState l

/-- The states reachable from an empty graph by mutation sequences all of
whose operations satisfy `P`. -/
def ReachP (P : Op → Prop) (st : LayoutTypeSystem) : Prop :=
  ∃ l : List Op, (∀ op ∈ l, P op) ∧ runOps l = some st

/-!
## Graph invariants
-/

/-- Every adjacency entry of a live node names a live node. -/
def Closed (st : LayoutTypeSystem) : Prop :=
  ∀ a ∈ st.Layouts,
    (∀ p ∈ succs st a, p.1 ∈ st.Layouts) ∧ (∀ p ∈ preds st a, p.1 ∈ st.Layouts)

/-- Adjacency mirroring: each successor entry has the matching predecessor
entry and vice versa. -/
def Mirrored (st : LayoutTypeSystem) : Prop :=
  ∀ a ∈ st.Layouts,
    (∀ p ∈ succs st a, (a, p.2) ∈ preds st p.1) ∧
    (∀ p ∈ preds st a, (a, p.2) ∈ succs st p.1)

/-- No live node appears as a neighbor in its own adjacency sets. -/
def NoSelfEdges (st : LayoutTypeSystem) : Prop :=
  ∀ a ∈ st.Layouts,
    (∀ p ∈ succs st a, p.1 ≠ a) ∧ (∀ p ∈ preds st a, p.1 ≠ a)

/-- Equality successor edges come in symmetric pairs. -/
def EqSym (st : LayoutTypeSystem) : Prop :=
  ∀ a ∈ st.Layouts, ∀ b ∈ st.Layouts,
    ((b, TypeLinkTag.LK_Equality) ∈ succs st a ↔
      (a, TypeLinkTag.LK_Equality) ∈ succs st b)

instance (st : LayoutTypeSystem) : Decidable (Closed st) := by
  unfold Closed; infer_instance

instance (st : LayoutTypeSystem) : Decidable (Mirrored st) := by
  unfold Mirrored; infer_instance

instance (st : LayoutTypeSystem) : Decidable (NoSelfEdges st) := by
  unfold NoSelfEdges; infer_instance

instance (st : LayoutTypeSystem) : Decidable (EqSym st) := by
  unfold EqSym; infer_instance

/-!
## Basic simp lemmas about the state accessors
-/

@[simp]
theorem nodes_updNode (st : LayoutTypeSystem) (x : Nat) (f) (z : Nat) :
    (updNode st x f).nodes z = if z = x then f (st.nodes z) else st.nodes z := rfl

@[simp]
theorem Layouts_updNode (st : LayoutTypeSystem) (x : Nat) (f) :
    (updNode st x f).Layouts = st.Layouts := rfl

@[simp]
theorem nodes_updNodesIn (st : LayoutTypeSystem) (s : Finset Nat) (f) (z : Nat) :
    (updNodesIn st s f).nodes z = if z ∈ s then f (st.nodes z) else st.nodes z := rfl

@[simp]
theorem Layouts_updNodesIn (st : LayoutTypeSystem) (s : Finset Nat) (f) :
    (updNodesIn st s f).Layouts = st.Layouts := rfl

@[simp]
theorem Successors_ite (c : Prop) [Decidable c] (a b : LayoutTypeSystemNode) :
    (if c then a else b).Successors = if c then a.Successors else b.Successors := by
  split <;> rfl

@[simp]
theorem Predecessors_ite (c : Prop) [Decidable c] (a b : LayoutTypeSystemNode) :
    (if c then a else b).Predecessors = if c then a.Predecessors else b.Predecessors := by
  split <;> rfl

@[simp]
theorem Size_ite (c : Prop) [Decidable c] (a b : LayoutTypeSystemNode) :
    (if c then a else b).Size = if c then a.Size else b.Size := by
  split <;> rfl

@[simp]
theorem InterferingInfo_ite (c : Prop) [Decidable c] (a b : LayoutTypeSystemNode) :
    (if c then a else b).InterferingInfo =
      if c then a.InterferingInfo else b.InterferingInfo := by
  split <;> rfl

theorem succs_def (st : LayoutTypeSystem) (x : Nat) :
    succs st x = (st.nodes x).Successors := rfl

theorem preds_def (st : LayoutTypeSystem) (x : Nat) :
    preds st x = (st.nodes x).Predecessors := rfl

/-- Membership in the result of `redirectTo`, assuming the two nodes are
distinct (as asserted by `fixPredSucc`). -/
theorem mem_redirectTo {From Into : Nat} (hne : From ≠ Into) (s : Finset Link)
    (y : Nat) (t : TypeLinkTag) :
    (y, t) ∈ redirectTo From Into s ↔
      (if y = Into then ((Into, t) ∈ s ∨ (From, t) ∈ s)
       else y ≠ From ∧ (y, t) ∈ s) := by
  unfold redirectTo
  simp only [Finset.mem_image, Prod.exists]
  constructor
  · rintro ⟨a, b, hab, he⟩
    by_cases ha : a = From
    · subst ha
      rw [if_pos rfl, Prod.mk.injEq] at he
      obtain ⟨rfl, rfl⟩ := he
      rw [if_pos rfl]
      exact Or.inr hab
    · rw [if_neg ha, Prod.mk.injEq] at he
      obtain ⟨rfl, rfl⟩ := he
      by_cases hai : a = Into
      · subst hai
        rw [if_pos rfl]
        exact Or.inl hab
      · rw [if_neg hai]
        exact ⟨ha, hab⟩
  · intro h
    by_cases hyi : y = Into
    · rw [if_pos hyi] at h
      rcases h with h | h
      · refine ⟨Into, t, h, ?_⟩
        rw [if_neg (Ne.symm hne), hyi]
      · refine ⟨From, t, h, ?_⟩
        rw [if_pos rfl, hyi]
    · rw [if_neg hyi] at h
      exact ⟨y, t, h.2, by rw [if_neg h.1]⟩

theorem mem_stripRefs (From Into : Nat) (s : Finset Link) (y : Nat)
    (t : TypeLinkTag) :
    (y, t) ∈ stripRefs From Into s ↔ y ≠ From ∧ y ≠ Into ∧ (y, t) ∈ s := by
  unfold stripRefs
  simp only [Finset.mem_filter, decide_eq_true_eq]
  tauto

/-!
## Concrete states used by counterexamples and witnesses
-/

/-- The deduplicated instance-at-offset-0 tag. -/
def instance0 : TypeLinkTag := .LK_Instance (.ofOffset 0)

def mkNode (sz : Nat) (sc pr : List Link) : LayoutTypeSystemNode :=
  { Successors := sc.toFinset, Predecessors := pr.toFinset, Size := sz,
    InterferingInfo := .Unknown }

/-- A `VectEqClasses` as produced by `n` calls of `growBy1` on the empty one:
`n` singleton classes. -/
def eqcN (n : Nat) : VectEqClasses :=
  { EC := fun i => i, NumClasses := 0, RemovedID := none, NElems := n }

/-- The graph of the spec's merge scenario: `A = 0` of size `a`, `B = 1` of
size `b`, `C = 2`, with `Instance(offset 0)` links `A → C` and `B → C`. -/
def mergeScenario (a b : Nat) : LayoutTypeSystem :=
  { NID := 3
    Layouts := {0, 1, 2}
    nodes := fun z =>
      if z = 0 then mkNode a [(2, instance0)] []
      else if z = 1 then mkNode b [(2, instance0)] []
      else if z = 2 then mkNode 0 [] [(0, instance0), (1, instance0)]
      else emptyNode
    LinkTags := {instance0}
    EqClasses := eqcN 3 }

/-- Two edgeless live nodes `0` and `1` of the given sizes. -/
def sizePair (a b : Nat) : LayoutTypeSystem :=
  { NID := 2
    Layouts := {0, 1}
    nodes := fun z =>
      if z = 0 then mkNode a [] [] else if z = 1 then mkNode b [] [] else emptyNode
    LinkTags := ∅
    EqClasses := eqcN 2 }

/-!
## Claim C1
-/

/-- Sizes are not touched by `fixPredSucc`: it only rewrites adjacency. -/
theorem Size_fixPredSucc (From Into : Nat) (st : LayoutTypeSystem) (x : Nat) :
    ((fixPredSucc From Into st).nodes x).Size = (st.nodes x).Size := by
  unfold fixPredSucc
  simp only [nodes_updNode, nodes_updNodesIn]
  repeat' split
  all_goals rfl

/-- Claim C1, counterexample: merging a node of size `1` into a surviving node
of size `2` succeeds, although the condition the claim says is asserted
(`Into.Size = 0 ∨ Into.Size ≤ From.Size`) is false there: the source asserts
the opposite inequality `From.Size ≤ Into.Size`. -/
theorem mergeSize_assert_direction_cex :
    (mergeNodes (sizePair 2 1) [0, 1]).isSome = true ∧
    ¬ (((sizePair 2 1).nodes 0).Size = 0 ∨
        ((sizePair 2 1).nodes 0).Size ≤ ((sizePair 2 1).nodes 1).Size) := by
  decide

/-- Claim C1 (corrected): at each step of `mergeNodes`, merging `From` into
`Into`, the implementation asserts that the previous `Into.Size` is zero or no
less than `From.Size` (i.e. `From.Size ≤ Into.Size`), and then sets
`Into.Size` to `max(Into.Size, From.Size)`. -/
theorem mergeStep_size (st : LayoutTypeSystem) (Into From : Nat)
    (st' : LayoutTypeSystem) (h : mergeStep st Into From = some st') :
    ((st.nodes Into).Size = 0 ∨ (st.nodes From).Size ≤ (st.nodes Into).Size) ∧
    (st'.nodes Into).Size = max (st.nodes Into).Size (st.nodes From).Size := by
  simp only [mergeStep] at h
  split at h
  · exact Option.noConfusion h
  split at h
  · exact Option.noConfusion h
  rename_i hne hlive
  split at h
  case isFalse => exact Option.noConfusion h
  case isTrue hsz =>
    injection h with h'
    subst h'
    constructor
    · simpa [Size_fixPredSucc, nodes_updNode, hne] using hsz
    · simp [Size_fixPredSucc, nodes_updNode, hne]

/-- Witness for the corrected claim C1 at a concrete merge. -/
theorem mergeStep_size_witness :
    (((sizePair 8 4).nodes 0).Size = 0 ∨
      ((sizePair 8 4).nodes 1).Size ≤ ((sizePair 8 4).nodes 0).Size) ∧
    (((mergeStep (sizePair 8 4) 0 1).getD initState).nodes 0).Size =
      max ((sizePair 8 4).nodes 0).Size ((sizePair 8 4).nodes 1).Size :=
  mergeStep_size (sizePair 8 4) 0 1 _ rfl

/-!
## Claim C2
-/

/-- Claim C2, counterexample: with `A` of size `4` and `B` of size `8` as the
claim states, `mergeNodes([A, B])` fails the size assertion and aborts instead
of producing a surviving node of size `8`. -/
theorem mergeScenario_cex :
    mergeNodes (mergeScenario 4 8) [0, 1] = none := rfl

/-- Claim C2 (corrected): with the sizes swapped so that the source's merge
assertion holds — `A` of size `8`, `B` of size `4`, `C`, instance links at
offset `0` from `A` and `B` to `C` — `mergeNodes([A, B])` succeeds and yields
a surviving node of size `8` with exactly one `Instance` successor edge to `C`
(the two duplicate edges collapse), while `C`'s predecessor set contains only
the surviving node. -/
theorem mergeScenario_ok :
    (mergeNodes (mergeScenario 8 4) [0, 1]).isSome = true ∧
    (((mergeNodes (mergeScenario 8 4) [0, 1]).getD initState).nodes 0).Size = 8 ∧
    succs ((mergeNodes (mergeScenario 8 4) [0, 1]).getD initState) 0 =
      {(2, instance0)} ∧
    preds ((mergeNodes (mergeScenario 8 4) [0, 1]).getD initState) 2 =
      {(0, instance0)} ∧
    ((mergeNodes (mergeScenario 8 4) [0, 1]).getD initState).Layouts = {0, 2} := by
  decide

/-!
## Claim C6
-/

/-- A node of size `0` whose only outgoing edge is a `Pointer` edge, next to
an ordinary node of size `4`. -/
def pointerLeafState : LayoutTypeSystem :=
  { NID := 2
    Layouts := {0, 1}
    nodes := fun z =>
      if z = 0 then mkNode 0 [(1, .LK_Pointer)] []
      else if z = 1 then mkNode 4 [] [(0, .LK_Pointer)]
      else emptyNode
    LinkTags := {.LK_Pointer}
    EqClasses := eqcN 2 }

/-- Claim C6, counterexample: `verifyLeafs` fails on a graph in which no node
with zero outgoing edges has size `0`; the failing node's only outgoing edge
is a `Pointer` edge, which the claim says should not make `verifyLeafs`
fail. -/
theorem verifyLeafs_pointer_cex :
    verifyLeafs pointerLeafState = false ∧
    (∀ n ∈ pointerLeafState.Layouts,
      succs pointerLeafState n = ∅ → (pointerLeafState.nodes n).Size ≠ 0) := by
  decide

/-- Claim C6 (corrected): `verifyLeafs` returns `false` exactly when some live
node all of whose outgoing edges are `Pointer` edges (in particular, a node
with no outgoing edges at all) has `Size` equal to `0`; a zero-size node whose
only outgoing edges are `Pointer` edges therefore does make `verifyLeafs`
fail. -/
theorem verifyLeafs_iff (st : LayoutTypeSystem) :
    verifyLeafs st = false ↔
      ∃ n ∈ st.Layouts,
        (∀ p ∈ succs st n, isPointerEdge p = true) ∧ (st.nodes n).Size = 0 := by
  unfold verifyLeafs isLeaf
  constructor
  · intro h
    have h' := of_decide_eq_false h
    push_neg at h'
    obtain ⟨n, hn, hleaf, hsz⟩ := h'
    exact ⟨n, hn, of_decide_eq_true hleaf, hsz⟩
  · rintro ⟨n, hn, hleaf, hsz⟩
    apply decide_eq_false
    push_neg
    exact ⟨n, hn, decide_eq_true hleaf, hsz⟩

/-- Witness for the corrected claim C6 at a concrete graph. -/
theorem verifyLeafs_iff_witness :
    ∃ n ∈ pointerLeafState.Layouts,
      (∀ p ∈ succs pointerLeafState n, isPointerEdge p = true) ∧
      (pointerLeafState.nodes n).Size = 0 :=
  (verifyLeafs_iff pointerLeafState).mp (by decide)

/-!
## Claim C7
-/

/-- Claim C7, counterexample: `moveEdge` with a null `OldSrc` does not abort;
it returns successfully with the graph unchanged. -/
theorem moveEdge_null_cex :
    moveEdge initState none (some 0) (0, .LK_Pointer) 3 = some initState := rfl

/-- Claim C7 (corrected): calling `moveEdge` with a null `OldSrc` or a null
`NewSrc` silently returns, leaving the graph unchanged, rather than
asserting/aborting. -/
theorem moveEdge_null (st : LayoutTypeSystem) (OldSrc NewSrc : Option Nat)
    (Edge : Link) (OffsetToSum : Int)
    (h : OldSrc = none ∨ NewSrc = none) :
    moveEdge st OldSrc NewSrc Edge OffsetToSum = some st := by
  unfold moveEdge
  rcases h with rfl | rfl
  · cases NewSrc <;> rfl
  · cases OldSrc <;> rfl

/-- Witness for the corrected claim C7. -/
theorem moveEdge_null_witness :
    moveEdge (sizePair 1 1) none (some 1) (0, .LK_Equality) (-7) = some (sizePair 1 1) :=
  moveEdge_null (sizePair 1 1) none (some 1) (0, .LK_Equality) (-7) (Or.inl rfl)

/-!
## Claim C5
-/

/-- The equation `addLink` satisfies on distinct live endpoints. -/
theorem addLink_eq (st : LayoutTypeSystem) (s t : Nat) (Tag : TypeLinkTag)
    (hne : s ≠ t) (hs : s ∈ st.Layouts) (ht : t ∈ st.Layouts) :
    addLink st (some s) (some t) Tag =
      some ((some Tag,
          decide ((t, Tag) ∉ succs st s) || decide ((s, Tag) ∉ preds st t)),
        updNode (updNode { st with LinkTags := insert Tag st.LinkTags } s
            (fun nd => { nd with Successors := insert (t, Tag) nd.Successors })) t
          (fun nd => { nd with Predecessors := insert (s, Tag) nd.Predecessors })) := by
  simp only [addLink]
  rw [if_neg hne, if_pos ⟨hs, ht⟩]

/-- Claim C5: `moveEdge` offset rebasing.  (1) Moving an `Instance` edge of
offset `k` with `offsetToSum = d ≠ 0` aborts when `k + d < 0` and otherwise
produces an `Instance` edge of offset `k + d` (same strides and trip counts)
from the new source to the same target; (2) moving an `Inheritance` edge with
`d > 0` produces an `Instance` edge of offset `d`; (3) with `d = 0` the moved
edge keeps its `Inheritance` tag; (4) moving an `Equality` or `Pointer` edge
with `d ≠ 0` is fatal. -/
theorem moveEdge_rebase :
    (∀ (st : LayoutTypeSystem) (o n Tgt : Nat) (OE : OffsetExpression) (d : Int),
      d ≠ 0 → o ∈ st.Layouts → n ∈ st.Layouts → Tgt ∈ st.Layouts → n ≠ Tgt →
      (Tgt, .LK_Instance OE) ∈ succs st o →
      (OE.Offset + d < 0 →
        moveEdge st (some o) (some n) (Tgt, .LK_Instance OE) d = none) ∧
      (0 ≤ OE.Offset + d →
        ∃ st', moveEdge st (some o) (some n) (Tgt, .LK_Instance OE) d = some st' ∧
          (Tgt, .LK_Instance { OE with Offset := OE.Offset + d }) ∈ succs st' n)) ∧
    (∀ (st : LayoutTypeSystem) (o n Tgt : Nat) (d : Int),
      0 < d → o ∈ st.Layouts → n ∈ st.Layouts → Tgt ∈ st.Layouts → n ≠ Tgt →
      (Tgt, TypeLinkTag.LK_Inheritance) ∈ succs st o →
      ∃ st', moveEdge st (some o) (some n) (Tgt, .LK_Inheritance) d = some st' ∧
        (Tgt, .LK_Instance (.ofOffset d)) ∈ succs st' n) ∧
    (∀ (st : LayoutTypeSystem) (o n Tgt : Nat),
      o ∈ st.Layouts → n ∈ st.Layouts → Tgt ∈ st.Layouts →
      (Tgt, TypeLinkTag.LK_Inheritance) ∈ succs st o →
      (o, TypeLinkTag.LK_Inheritance) ∈ preds st Tgt →
      ∃ st', moveEdge st (some o) (some n) (Tgt, .LK_Inheritance) 0 = some st' ∧
        (Tgt, TypeLinkTag.LK_Inheritance) ∈ succs st' n) ∧
    (∀ (st : LayoutTypeSystem) (o n Tgt : Nat) (t : TypeLinkTag) (d : Int),
      d ≠ 0 → (t = .LK_Equality ∨ t = .LK_Pointer) →
      moveEdge st (some o) (some n) (Tgt, t) d = none) := by
  refine ⟨?_, ?_, ?_, ?_⟩
  · intro st o n Tgt OE d hd ho hn ht hnt he
    constructor
    · intro hneg
      simp only [moveEdge, if_neg hd]
      rw [if_neg (by simp [ho, ht]), if_neg (by simp [he])]
      simp only [if_pos hneg]
    · intro hpos
      simp only [moveEdge, if_neg hd]
      rw [if_neg (by simp [ho, ht]), if_neg (by simp [he])]
      rw [if_neg (by omega : ¬ (OE.Offset + d < 0))]
      rw [addInstanceLink, addLink_eq _ n Tgt _ hnt (by simpa using hn) (by simpa using ht)]
      refine ⟨_, rfl, ?_⟩
      simp [succs, nodes_updNode, hnt]
  · intro st o n Tgt d hd ho hn ht hnt he
    simp only [moveEdge, if_neg (by omega : d ≠ 0)]
    rw [if_neg (by simp [ho, ht]), if_neg (by simp [he])]
    rw [if_pos hd]
    rw [addInstanceLink, addLink_eq _ n Tgt _ hnt (by simpa using hn) (by simpa using ht)]
    refine ⟨_, rfl, ?_⟩
    simp [succs, nodes_updNode, hnt]
  · intro st o n Tgt ho hn ht he hp
    have hred : moveEdge st (some o) (some n) (Tgt, .LK_Inheritance) 0
        = moveEdgeWithoutSumming st o n (Tgt, .LK_Inheritance) := rfl
    rw [hred]
    simp only [moveEdgeWithoutSumming]
    rw [if_neg (by simp [ho, hn, ht]), if_neg (by simp [he])]
    rw [if_neg (by simpa [preds, nodes_updNode] using hp)]
    refine ⟨_, rfl, ?_⟩
    by_cases hn2 : n = Tgt
    · subst hn2
      simp [succs, nodes_updNode]
    · simp [succs, nodes_updNode, hn2]
  · intro st o n Tgt t d hd ht
    rcases ht with rfl | rfl <;>
    · simp only [moveEdge, if_neg hd]
      split
      · rfl
      · split
        · rfl
        · rfl

/-- A graph with an `Instance(offset 4)` edge `0 → 2`, an `Inheritance` edge
`0 → 3`, and a spare node `1`. -/
def c5st : LayoutTypeSystem :=
  { NID := 4
    Layouts := {0, 1, 2, 3}
    nodes := fun z =>
      if z = 0 then mkNode 8 [(2, .LK_Instance (.ofOffset 4)), (3, .LK_Inheritance)] []
      else if z = 1 then mkNode 4 [] []
      else if z = 2 then mkNode 4 [] [(0, .LK_Instance (.ofOffset 4))]
      else if z = 3 then mkNode 4 [] [(0, .LK_Inheritance)]
      else emptyNode
    LinkTags := {.LK_Instance (.ofOffset 4), .LK_Inheritance}
    EqClasses := eqcN 4 }

/-- Witness for claim C5 at a concrete graph. -/
theorem moveEdge_rebase_witness :
    (moveEdge c5st (some 0) (some 1) (2, .LK_Instance (.ofOffset 4)) (-5) = none) ∧
    (∃ st', moveEdge c5st (some 0) (some 1) (2, .LK_Instance (.ofOffset 4)) 3 = some st' ∧
        (2, TypeLinkTag.LK_Instance (.ofOffset 7)) ∈ succs st' 1) ∧
    (∃ st', moveEdge c5st (some 0) (some 1) (3, .LK_Inheritance) 5 = some st' ∧
        (3, TypeLinkTag.LK_Instance (.ofOffset 5)) ∈ succs st' 1) ∧
    (∃ st', moveEdge c5st (some 0) (some 1) (3, .LK_Inheritance) 0 = some st' ∧
        (3, TypeLinkTag.LK_Inheritance) ∈ succs st' 1) ∧
    moveEdge c5st (some 0) (some 1) (2, .LK_Equality) 9 = none :=
  ⟨(moveEdge_rebase.1 c5st 0 1 2 (.ofOffset 4) (-5) (by decide) (by decide) (by decide)
      (by decide) (by decide) (by decide)).1 (by decide),
   (moveEdge_rebase.1 c5st 0 1 2 (.ofOffset 4) 3 (by decide) (by decide) (by decide)
      (by decide) (by decide) (by decide)).2 (by decide),
   moveEdge_rebase.2.1 c5st 0 1 3 5 (by decide) (by decide) (by decide) (by decide)
      (by decide) (by decide),
   moveEdge_rebase.2.2.1 c5st 0 1 3 (by decide) (by decide) (by decide) (by decide)
      (by decide),
   moveEdge_rebase.2.2.2 c5st 0 1 2 .LK_Equality 9 (by decide) (Or.inl rfl)⟩

/-!
## Claim C8: the union-find with tombstones

The `IntEqClasses` representation invariant is `EC[i] <= i` (with equality
exactly at class leaders); `EqWF` additionally records that the removed
sentinel, when present, is a valid element id.
-/

def EqWF (v : VectEqClasses) : Prop :=
  (∀ i, v.EC i ≤ i) ∧ (∀ r, v.RemovedID = some r → r < v.NElems)

theorem findLeaderFuel_zero (ec : Nat → Nat) (f : Nat) :
    findLeaderFuel ec f 0 = 0 := by
  cases f <;> simp [findLeaderFuel]

theorem findLeaderFuel_fix (ec : Nat → Nat) (f x : Nat) (h : ¬ ec x < x) :
    findLeaderFuel ec f x = x := by
  cases f <;> simp [findLeaderFuel, h]

theorem findLeaderFuel_congr (ec : Nat → Nat) :
    ∀ f1 f2 x : Nat, x ≤ f1 → x ≤ f2 →
      findLeaderFuel ec f1 x = findLeaderFuel ec f2 x := by
  intro f1
  induction f1 with
  | zero =>
    intro f2 x h1 _
    obtain rfl := Nat.le_zero.mp h1
    rw [findLeaderFuel_zero, findLeaderFuel_zero]
  | succ f ih =>
    intro f2 x h1 h2
    cases f2 with
    | zero =>
      obtain rfl := Nat.le_zero.mp h2
      rw [findLeaderFuel_zero, findLeaderFuel_zero]
    | succ g =>
      simp only [findLeaderFuel]
      split
      case isTrue hlt => exact ih g (ec x) (by omega) (by omega)
      case isFalse => rfl

theorem findLeaderFuel_isLeader (ec : Nat → Nat) (hwf : ∀ i, ec i ≤ i) :
    ∀ f x : Nat, x ≤ f →
      ec (findLeaderFuel ec f x) = findLeaderFuel ec f x := by
  intro f
  induction f with
  | zero =>
    intro x hx
    obtain rfl := Nat.le_zero.mp hx
    rw [findLeaderFuel_zero]
    exact Nat.le_zero.mp (hwf 0)
  | succ f ih =>
    intro x hx
    simp only [findLeaderFuel]
    split
    case isTrue h => exact ih (ec x) (by have := hwf x; omega)
    case isFalse h => have := hwf x; omega

/-- Re-pointing one leader `L` at a smaller leader `m` composes with
`findLeader` as expected: exactly the elements previously led by `L` are now
led by `m`. -/
theorem findLeaderFuel_update (ec : Nat → Nat) (L m : Nat)
    (hwf : ∀ i, ec i ≤ i) (hL : ec L = L) (hm : ec m = m) (hmL : m < L) :
    ∀ f x : Nat, x ≤ f →
      findLeaderFuel (Function.update ec L m) f x =
        if findLeaderFuel ec f x = L then m else findLeaderFuel ec f x := by
  intro f
  induction f with
  | zero =>
    intro x hx
    obtain rfl := Nat.le_zero.mp hx
    rw [findLeaderFuel_zero, findLeaderFuel_zero, if_neg (by omega)]
  | succ f ih =>
    intro x hx
    by_cases hxL : x = L
    · have h1 : Function.update ec L m L = m := Function.update_same L m ec
      have h2 : Function.update ec L m m = m := by
        rw [Function.update_noteq (Nat.ne_of_lt hmL)]
        exact hm
      have hLfix : findLeaderFuel ec (f + 1) L = L :=
        findLeaderFuel_fix _ _ _ (by rw [hL]; exact Nat.lt_irrefl L)
      have hLnew : findLeaderFuel (Function.update ec L m) (f + 1) L = m := by
        simp only [findLeaderFuel, h1]
        rw [if_pos hmL]
        exact findLeaderFuel_fix _ _ _ (by rw [h2]; exact Nat.lt_irrefl m)
      rw [hxL, hLnew, hLfix, if_pos rfl]
    · have hux : Function.update ec L m x = ec x := Function.update_noteq hxL m ec
      by_cases hlt : ec x < x
      · have lhs : findLeaderFuel (Function.update ec L m) (f + 1) x =
            findLeaderFuel (Function.update ec L m) f (ec x) := by
          simp only [findLeaderFuel, hux, if_pos hlt]
        have rhs : findLeaderFuel ec (f + 1) x = findLeaderFuel ec f (ec x) := by
          simp only [findLeaderFuel, if_pos hlt]
        rw [lhs, rhs]
        exact ih (ec x) (by omega)
      · have l1 : findLeaderFuel (Function.update ec L m) (f + 1) x = x :=
          findLeaderFuel_fix _ _ _ (by rw [hux]; exact hlt)
        have l2 : findLeaderFuel ec (f + 1) x = x := findLeaderFuel_fix _ _ _ hlt
        rw [l1, l2, if_neg hxL]

/-- After `join a b` the two arguments have the same leader. -/
theorem join_findLeader (v : VectEqClasses) (a b : Nat)
    (hwf : ∀ i, v.EC i ≤ i) :
    (v.join a b).findLeader a = (v.join a b).findLeader b := by
  have hla : v.EC (v.findLeader a) = v.findLeader a :=
    findLeaderFuel_isLeader v.EC hwf a a le_rfl
  have hlb : v.EC (v.findLeader b) = v.findLeader b :=
    findLeaderFuel_isLeader v.EC hwf b b le_rfl
  unfold VectEqClasses.join
  by_cases h : v.findLeader a = v.findLeader b
  · rw [if_pos h]
    exact h
  · rw [if_neg h]
    have hmax : v.EC (max (v.findLeader a) (v.findLeader b)) =
        max (v.findLeader a) (v.findLeader b) := by
      rcases max_choice (v.findLeader a) (v.findLeader b) with h1 | h1 <;>
        rw [h1] <;> assumption
    have hmin : v.EC (min (v.findLeader a) (v.findLeader b)) =
        min (v.findLeader a) (v.findLeader b) := by
      rcases min_choice (v.findLeader a) (v.findLeader b) with h1 | h1 <;>
        rw [h1] <;> assumption
    have hlt : min (v.findLeader a) (v.findLeader b) <
        max (v.findLeader a) (v.findLeader b) := by omega
    have key := findLeaderFuel_update v.EC _ _ hwf hmax hmin hlt
    simp only [VectEqClasses.findLeader] at h key ⊢
    rw [key a a le_rfl, key b b le_rfl]
    split_ifs <;> omega

theorem join_EC_le (v : VectEqClasses) (a b : Nat) (hwf : ∀ i, v.EC i ≤ i) :
    ∀ i, (v.join a b).EC i ≤ i := by
  intro i
  simp only [VectEqClasses.join]
  split
  · exact hwf i
  · dsimp only
    by_cases hi : i = max (v.findLeader a) (v.findLeader b)
    · rw [hi, Function.update_same]
      omega
    · rw [Function.update_noteq hi]
      exact hwf i

theorem join_RemovedID (v : VectEqClasses) (a b : Nat) :
    (v.join a b).RemovedID = v.RemovedID := by
  simp only [VectEqClasses.join]
  split <;> rfl

theorem join_NumClasses (v : VectEqClasses) (a b : Nat) :
    (v.join a b).NumClasses = v.NumClasses := by
  simp only [VectEqClasses.join]
  split <;> rfl

theorem join_NElems (v : VectEqClasses) (a b : Nat) :
    (v.join a b).NElems = v.NElems := by
  simp only [VectEqClasses.join]
  split <;> rfl

theorem compress_RemovedID (v : VectEqClasses) :
    (v.compress).RemovedID = v.RemovedID := by
  simp only [VectEqClasses.compress]
  split <;> rfl

/-- The number of class leaders among the first `k` elements: the class id
`compress` assigns to the leader `l` is `leaderCount EC l`. -/
def leaderCount (ec : Nat → Nat) (k : Nat) : Nat :=
  ((List.range k).filter (fun j => decide (ec j = j))).length

theorem leaderCount_pos (ec : Nat → Nat) (hwf : ∀ i, ec i ≤ i) (n : Nat)
    (hn : 0 < n) : 0 < leaderCount ec n := by
  unfold leaderCount
  have h0 : ec 0 = 0 := Nat.le_zero.mp (hwf 0)
  have hmem : 0 ∈ (List.range n).filter (fun j => decide (ec j = j)) := by
    rw [List.mem_filter]
    exact ⟨List.mem_range.mpr hn, by simp [h0]⟩
  exact List.length_pos_of_mem hmem

/-- The invariant of the `compress` loop: after processing the first `k`
elements, the processed entries hold the class id of their leader, the
unprocessed ones are untouched, and the class counter equals the number of
leaders seen. -/
theorem compressLoop_spec (ec : Nat → Nat) (hwf : ∀ i, ec i ≤ i) :
    ∀ k : Nat,
      (∀ i, i < k → ((List.range k).foldl compressStep (ec, 0)).1 i =
          leaderCount ec (findLeaderFuel ec i i)) ∧
      (∀ i, k ≤ i → ((List.range k).foldl compressStep (ec, 0)).1 i = ec i) ∧
      ((List.range k).foldl compressStep (ec, 0)).2 = leaderCount ec k := by
  intro k
  induction k with
  | zero => exact ⟨fun i hi => absurd hi (by omega), fun i _ => rfl, rfl⟩
  | succ k ih =>
    obtain ⟨ih1, ih2, ih3⟩ := ih
    rw [List.range_succ]
    simp only [List.foldl_append, List.foldl_cons, List.foldl_nil] at ih1 ih2 ih3 ⊢
    have hk : ((List.range k).foldl compressStep (ec, 0)).1 k = ec k := ih2 k le_rfl
    simp only [compressStep]
    by_cases hld : ec k = k
    · rw [if_pos (by rw [hk]; exact hld)]
      dsimp only
      refine ⟨?_, ?_, ?_⟩
      · intro i hi
        by_cases hik : i = k
        · subst hik
          rw [Function.update_same, ih3,
            findLeaderFuel_fix _ _ _ (by omega)]
        · rw [Function.update_noteq hik]
          exact ih1 i (by omega)
      · intro i hi
        rw [Function.update_noteq (by omega)]
        exact ih2 i (by omega)
      · rw [ih3]
        unfold leaderCount
        rw [List.range_succ, List.filter_append]
        simp [hld]
    · rw [if_neg (by rw [hk]; exact hld)]
      dsimp only
      have hlt : ec k < k := by have := hwf k; omega
      refine ⟨?_, ?_, ?_⟩
      · intro i hi
        by_cases hik : i = k
        · rw [hik, Function.update_same, hk, ih1 (ec k) hlt]
          congr 1
          cases k with
          | zero => omega
          | succ j =>
            rw [show findLeaderFuel ec (j + 1) (j + 1) =
                findLeaderFuel ec j (ec (j + 1)) from by
              simp only [findLeaderFuel, if_pos hlt]]
            exact findLeaderFuel_congr ec (ec (j + 1)) j (ec (j + 1)) le_rfl (by omega)
        · rw [Function.update_noteq hik]
          exact ih1 i (by omega)
      · intro i hi
        rw [Function.update_noteq (by omega)]
        exact ih2 i (by omega)
      · rw [ih3]
        unfold leaderCount
        rw [List.range_succ, List.filter_append]
        simp [hld]

/-- `compress` sends elements with a common leader to a common class id. -/
theorem isRemoved_compress (v : VectEqClasses) (A r : Nat)
    (hwf : ∀ i, v.EC i ≤ i) (hnc : v.NumClasses = 0)
    (hR : v.RemovedID = some r) (hA : A < v.NElems) (hr : r < v.NElems)
    (hfl : v.findLeader A = v.findLeader r) :
    (v.compress).isRemoved A = true := by
  unfold VectEqClasses.compress
  rw [if_neg (by simp [hnc])]
  obtain ⟨c1, _, c3⟩ := compressLoop_spec v.EC hwf v.NElems
  unfold VectEqClasses.isRemoved VectEqClasses.getNumClasses VectEqClasses.lookupEqClass
  simp only [hR]
  rw [if_neg (by rw [c3]; have := leaderCount_pos v.EC hwf v.NElems (by omega); omega)]
  rw [decide_eq_true_eq, c1 A hA, c1 r hr]
  unfold VectEqClasses.findLeader at hfl
  rw [hfl]

/-- After `remove A` the graph is uncompressed iff it was, with the same
element count, and `A` shares a leader with the sentinel. -/
theorem isRemoved_remove (v : VectEqClasses) (A : Nat)
    (hwf : ∀ i, v.EC i ≤ i) (hnc : v.NumClasses = 0) :
    (v.remove A).isRemoved A = true := by
  cases hR : v.RemovedID with
  | none =>
    have hv : v.remove A = { v with RemovedID := some A } := by
      unfold VectEqClasses.remove
      rw [hR]
    rw [hv]
    simp [VectEqClasses.isRemoved, VectEqClasses.getNumClasses, hnc]
  | some r =>
    have hv : v.remove A = v.join A r := by
      unfold VectEqClasses.remove
      rw [hR]
    rw [hv]
    unfold VectEqClasses.isRemoved
    rw [join_RemovedID, hR]
    dsimp only
    rw [if_pos (by unfold VectEqClasses.getNumClasses; rw [join_NumClasses]; exact hnc)]
    rw [decide_eq_true_eq]
    exact join_findLeader v A r hwf

theorem removeNode_EqClasses (st : LayoutTypeSystem) (A : Nat)
    (st' : LayoutTypeSystem) (h : removeNode st A = some st') :
    st'.EqClasses = st.EqClasses.remove A := by
  unfold removeNode at h
  split at h
  · exact Option.noConfusion h
  · injection h with h'
    subst h'
    rfl

/-- Claim C8: after `removeNode(A)`, `isRemoved` on `A`'s identifier returns
true, still returns true after the equivalence classes are subsequently
compressed, and the removed sentinel, once set, is never unset by any
`VectEqClasses` operation. -/
theorem removeNode_isRemoved (st : LayoutTypeSystem) (A : Nat)
    (st' : LayoutTypeSystem) (hwf : EqWF st.EqClasses)
    (hnc : st.EqClasses.NumClasses = 0) (hA : A < st.EqClasses.NElems)
    (h : removeNode st A = some st') :
    st'.EqClasses.isRemoved A = true ∧
    st'.EqClasses.compress.isRemoved A = true ∧
    (∀ (w : VectEqClasses) (a b : Nat),
      (w.growBy1).RemovedID = w.RemovedID ∧
      (w.join a b).RemovedID = w.RemovedID ∧
      (w.compress).RemovedID = w.RemovedID ∧
      (w.RemovedID.isSome → (w.remove a).RemovedID = w.RemovedID)) := by
  obtain ⟨hle, hson⟩ := hwf
  rw [removeNode_EqClasses st A st' h]
  refine ⟨isRemoved_remove st.EqClasses A hle hnc, ?_, ?_⟩
  · unfold VectEqClasses.remove
    cases hR : st.EqClasses.RemovedID with
    | none =>
      exact isRemoved_compress _ A A hle hnc rfl hA hA rfl
    | some r =>
      have hrlt : r < st.EqClasses.NElems := hson r hR
      refine isRemoved_compress _ A r
        (join_EC_le st.EqClasses A r hle)
        (by rw [join_NumClasses]; exact hnc)
        (by rw [join_RemovedID]; exact hR)
        (by rw [join_NElems]; exact hA)
        (by rw [join_NElems]; exact hrlt)
        (join_findLeader st.EqClasses A r hle)
  · intro w a b
    refine ⟨rfl, join_RemovedID w a b, compress_RemovedID w, ?_⟩
    intro hs
    cases hw : w.RemovedID with
    | none => rw [hw] at hs; exact Bool.noConfusion hs
    | some r =>
      unfold VectEqClasses.remove
      rw [hw, join_RemovedID, hw]

/-!
## Characterizing fixPredSucc

`fpsN1`/`fpsN2` are the neighbor sets the two rewrite phases of `fixPredSucc`
iterate over: the successor-neighbors of `From` at entry, and the
predecessor-neighbors of `From` after phase 1.
-/

def fpsN1 (From : Nat) (st : LayoutTypeSystem) : Finset Nat :=
  (succs st From).image Prod.fst

def fpsN2 (From Into : Nat) (st : LayoutTypeSystem) : Finset Nat :=
  (if From ∈ fpsN1 From st then redirectTo From Into (preds st From)
   else preds st From).image Prod.fst

theorem redirectTo_eq_self {From Into : Nat} (s : Finset Link)
    (h : ∀ t, (From, t) ∉ s) : redirectTo From Into s = s := by
  apply Finset.ext
  rintro ⟨y, t⟩
  unfold redirectTo
  simp only [Finset.mem_image, Prod.exists]
  constructor
  · rintro ⟨a, b, hab, he⟩
    by_cases ha : a = From
    · exact absurd (ha ▸ hab) (h b)
    · rw [if_neg ha, Prod.mk.injEq] at he
      obtain ⟨rfl, rfl⟩ := he
      exact hab
  · intro hyt
    refine ⟨y, t, hyt, ?_⟩
    rw [if_neg]
    intro hyF
    exact h t (hyF ▸ hyt)

theorem stripRefs_union (From Into : Nat) (s u : Finset Link) :
    stripRefs From Into (s ∪ u) = stripRefs From Into s ∪ stripRefs From Into u :=
  Finset.filter_union ..

theorem stripRefs_redirectTo {From Into : Nat} (hne : From ≠ Into)
    (s : Finset Link) :
    stripRefs From Into (redirectTo From Into s) = stripRefs From Into s := by
  apply Finset.ext
  rintro ⟨y, t⟩
  rw [mem_stripRefs, mem_stripRefs, mem_redirectTo hne]
  constructor
  · rintro ⟨hyF, hyI, hm⟩
    rw [if_neg hyI] at hm
    exact ⟨hyF, hyI, hm.2⟩
  · rintro ⟨hyF, hyI, hm⟩
    exact ⟨hyF, hyI, by rw [if_neg hyI]; exact ⟨hyF, hm⟩⟩

theorem Layouts_fixPredSucc (From Into : Nat) (st : LayoutTypeSystem) :
    (fixPredSucc From Into st).Layouts = st.Layouts := rfl

theorem EqClasses_fixPredSucc (From Into : Nat) (st : LayoutTypeSystem) :
    (fixPredSucc From Into st).EqClasses = st.EqClasses := rfl

theorem InterferingInfo_fixPredSucc (From Into : Nat) (st : LayoutTypeSystem)
    (x : Nat) :
    ((fixPredSucc From Into st).nodes x).InterferingInfo =
      (st.nodes x).InterferingInfo := by
  unfold fixPredSucc
  simp only [nodes_updNode, nodes_updNodesIn]
  repeat' split
  all_goals rfl

/-- Phase-level value of the predecessor set after `fixPredSucc`, away from
`Into`: rewritten iff the node is a successor-neighbor of `From`. -/
theorem preds_fixPredSucc (From Into : Nat) (st : LayoutTypeSystem) (x : Nat)
    (hxI : x ≠ Into) :
    preds (fixPredSucc From Into st) x =
      if x ∈ fpsN1 From st then redirectTo From Into (preds st x)
      else preds st x := by
  unfold fixPredSucc fpsN1
  simp only [preds, succs, nodes_updNode, nodes_updNodesIn, if_neg hxI,
    Successors_ite, Predecessors_ite, ite_self]

/-- Phase-level value of the successor set after `fixPredSucc`, away from
`Into`: rewritten iff the node is a predecessor-neighbor of `From` after
phase 1. -/
theorem succs_fixPredSucc (From Into : Nat) (st : LayoutTypeSystem) (x : Nat)
    (hxI : x ≠ Into) :
    succs (fixPredSucc From Into st) x =
      if x ∈ fpsN2 From Into st then redirectTo From Into (succs st x)
      else succs st x := by
  unfold fixPredSucc fpsN2 fpsN1
  simp only [succs, preds, nodes_updNode, nodes_updNodesIn, if_neg hxI,
    Successors_ite, Predecessors_ite, ite_self]

/-- The successor set of `Into` after `fixPredSucc`. -/
theorem succs_fixPredSucc_Into (From Into : Nat) (st : LayoutTypeSystem)
    (hne : From ≠ Into) :
    succs (fixPredSucc From Into st) Into =
      stripRefs From Into (succs st Into ∪ succs st From) := by
  unfold fixPredSucc
  simp only [succs, preds, nodes_updNode, nodes_updNodesIn,
    Successors_ite, Predecessors_ite, ite_self, eq_self_iff_true, if_true]
  rw [stripRefs_union, stripRefs_union]
  congr 1 <;>
  · repeat' split
    all_goals
      first
        | rw [stripRefs_redirectTo hne]
        | rfl

/-- The predecessor set of `Into` after `fixPredSucc`. -/
theorem preds_fixPredSucc_Into (From Into : Nat) (st : LayoutTypeSystem)
    (hne : From ≠ Into) :
    preds (fixPredSucc From Into st) Into =
      stripRefs From Into (preds st Into ∪ preds st From) := by
  unfold fixPredSucc
  simp only [succs, preds, nodes_updNode, nodes_updNodesIn,
    Successors_ite, Predecessors_ite, ite_self, eq_self_iff_true, if_true]
  rw [stripRefs_union, stripRefs_union]
  congr 1 <;>
  · repeat' split
    all_goals
      first
        | rw [stripRefs_redirectTo hne]
        | rfl

/-- Witness for claim C8 at a concrete graph. -/
theorem removeNode_isRemoved_witness :
    (((removeNode (sizePair 1 1) 0).getD initState).EqClasses.isRemoved 0 = true) ∧
    ((((removeNode (sizePair 1 1) 0).getD initState).EqClasses.compress).isRemoved 0 = true) ∧
    (∀ (w : VectEqClasses) (a b : Nat),
      (w.growBy1).RemovedID = w.RemovedID ∧
      (w.join a b).RemovedID = w.RemovedID ∧
      (w.compress).RemovedID = w.RemovedID ∧
      (w.RemovedID.isSome → (w.remove a).RemovedID = w.RemovedID)) :=
  removeNode_isRemoved (sizePair 1 1) 0 _
    ⟨fun _ => le_rfl, fun _ hr => Option.noConfusion hr⟩ rfl (by decide) rfl

/-!
## fixPredSucc under the mirroring invariant

In a mirrored graph every node holding a `(From, ·)` entry is listed among
`From`'s own neighbors, so the conditional rewrites of `fixPredSucc` become
unconditional.
-/

theorem succs_updNode_keep (st : LayoutTypeSystem) (y : Nat) (f) (x : Nat)
    (hf : ∀ nd, (f nd).Successors = nd.Successors) :
    succs (updNode st y f) x = succs st x := by
  simp only [succs, nodes_updNode]
  split
  · exact hf _
  · rfl

theorem preds_updNode_keep (st : LayoutTypeSystem) (y : Nat) (f) (x : Nat)
    (hf : ∀ nd, (f nd).Predecessors = nd.Predecessors) :
    preds (updNode st y f) x = preds st x := by
  simp only [preds, nodes_updNode]
  split
  · exact hf _
  · rfl

theorem succs_fixPredSucc_spec (From Into : Nat) (st : LayoutTypeSystem)
    (x : Nat) (hm : Mirrored st) (hFI : From ≠ Into) (hx : x ∈ st.Layouts)
    (hxF : x ≠ From) (hxI : x ≠ Into) :
    succs (fixPredSucc From Into st) x = redirectTo From Into (succs st x) := by
  rw [succs_fixPredSucc From Into st x hxI]
  split
  · rfl
  · rename_i hn2
    rw [redirectTo_eq_self]
    intro t hFt
    apply hn2
    have hxp : (x, t) ∈ preds st From := (hm x hx).1 (From, t) hFt
    unfold fpsN2
    rw [Finset.mem_image]
    split
    · refine ⟨(x, t), ?_, rfl⟩
      rw [mem_redirectTo hFI, if_neg hxI]
      exact ⟨hxF, hxp⟩
    · exact ⟨(x, t), hxp, rfl⟩

theorem preds_fixPredSucc_spec (From Into : Nat) (st : LayoutTypeSystem)
    (x : Nat) (hm : Mirrored st) (hFI : From ≠ Into) (hx : x ∈ st.Layouts)
    (hxF : x ≠ From) (hxI : x ≠ Into) :
    preds (fixPredSucc From Into st) x = redirectTo From Into (preds st x) := by
  rw [preds_fixPredSucc From Into st x hxI]
  split
  · rfl
  · rename_i hn1
    rw [redirectTo_eq_self]
    intro t hFt
    refine absurd ?_ hn1
    have hxs : (x, t) ∈ succs st From := (hm x hx).2 (From, t) hFt
    unfold fpsN1
    rw [Finset.mem_image]
    exact ⟨(x, t), hxs, rfl⟩

/-- Full characterization of `mergeStep` in a mirrored graph: `From` must be
live and distinct from `Into`, it is removed from the live set, every other
node has its `(From, ·)` entries re-keyed to `Into`, and `Into` absorbs
`From`'s adjacency minus all self references. -/
theorem mergeStep_spec (st : LayoutTypeSystem) (Into From : Nat)
    (st' : LayoutTypeSystem) (hm : Mirrored st)
    (h : mergeStep st Into From = some st') :
    From ≠ Into ∧ From ∈ st.Layouts ∧
    st'.Layouts = st.Layouts.erase From ∧
    (∀ x, x ∈ st.Layouts → x ≠ From → x ≠ Into →
      succs st' x = redirectTo From Into (succs st x) ∧
      preds st' x = redirectTo From Into (preds st x)) ∧
    succs st' Into = stripRefs From Into (succs st Into ∪ succs st From) ∧
    preds st' Into = stripRefs From Into (preds st Into ∪ preds st From) := by
  simp only [mergeStep] at h
  split at h
  · exact Option.noConfusion h
  split at h
  · exact Option.noConfusion h
  rename_i hne hlive
  split at h
  case isFalse => exact Option.noConfusion h
  case isTrue hsz =>
    injection h with h'
    subst h'
    refine ⟨hne, not_not.mp hlive, rfl, ?_, ?_, ?_⟩
    · intro x hx hxF hxI
      constructor
      · have hspec := succs_fixPredSucc_spec From Into
          { st with EqClasses := st.EqClasses.join Into From } x hm hne hx hxF hxI
        simpa [succs, nodes_updNode, hxI] using hspec
      · have hspec := preds_fixPredSucc_spec From Into
          { st with EqClasses := st.EqClasses.join Into From } x hm hne hx hxF hxI
        simpa [preds, nodes_updNode, hxI] using hspec
    · have hspec := succs_fixPredSucc_Into From Into
        { st with EqClasses := st.EqClasses.join Into From } hne
      simpa [succs, nodes_updNode] using hspec
    · have hspec := preds_fixPredSucc_Into From Into
        { st with EqClasses := st.EqClasses.join Into From } hne
      simpa [preds, nodes_updNode] using hspec

/-- Characterization of `mergeStep` without any invariant assumption (the
rewrites stay guarded by the neighbor sets actually visited). -/
theorem mergeStep_raw (st : LayoutTypeSystem) (Into From : Nat)
    (st' : LayoutTypeSystem) (h : mergeStep st Into From = some st') :
    From ≠ Into ∧ From ∈ st.Layouts ∧
    st'.Layouts = st.Layouts.erase From ∧
    (∀ x, x ≠ Into →
      succs st' x = (if x ∈ fpsN2 From Into st then redirectTo From Into (succs st x)
        else succs st x) ∧
      preds st' x = (if x ∈ fpsN1 From st then redirectTo From Into (preds st x)
        else preds st x)) ∧
    succs st' Into = stripRefs From Into (succs st Into ∪ succs st From) ∧
    preds st' Into = stripRefs From Into (preds st Into ∪ preds st From) := by
  simp only [mergeStep] at h
  split at h
  · exact Option.noConfusion h
  split at h
  · exact Option.noConfusion h
  rename_i hne hlive
  split at h
  case isFalse => exact Option.noConfusion h
  case isTrue hsz =>
    injection h with h'
    subst h'
    refine ⟨hne, not_not.mp hlive, rfl, ?_, ?_, ?_⟩
    · intro x hxI
      constructor
      · have hspec := succs_fixPredSucc From Into
          { st with EqClasses := st.EqClasses.join Into From } x hxI
        simpa [succs, preds, nodes_updNode, hxI, fpsN1, fpsN2] using hspec
      · have hspec := preds_fixPredSucc From Into
          { st with EqClasses := st.EqClasses.join Into From } x hxI
        simpa [succs, preds, nodes_updNode, hxI, fpsN1, fpsN2] using hspec
    · have hspec := succs_fixPredSucc_Into From Into
        { st with EqClasses := st.EqClasses.join Into From } hne
      simpa [succs, nodes_updNode] using hspec
    · have hspec := preds_fixPredSucc_Into From Into
        { st with EqClasses := st.EqClasses.join Into From } hne
      simpa [preds, nodes_updNode] using hspec

/-- `mergeStep` preserves `Closed` and `Mirrored`, and keeps the surviving
node live. -/
theorem mergeStep_CM (st : LayoutTypeSystem) (Into From : Nat)
    (st' : LayoutTypeSystem) (hc : Closed st) (hm : Mirrored st)
    (hI : Into ∈ st.Layouts) (h : mergeStep st Into From = some st') :
    Closed st' ∧ Mirrored st' ∧ Into ∈ st'.Layouts := by
  obtain ⟨hne, hF, hL, hx, hsI, hpI⟩ := mergeStep_spec st Into From st' hm h
  have hIL' : Into ∈ st'.Layouts := by
    rw [hL]
    exact Finset.mem_erase.mpr ⟨Ne.symm hne, hI⟩
  refine ⟨?_, ?_, hIL'⟩
  · intro a ha
    rw [hL] at ha
    obtain ⟨haF, haL⟩ := Finset.mem_erase.mp ha
    constructor
    · rintro ⟨y, t⟩ hp
      by_cases haI : a = Into
      · subst haI
        rw [hsI, mem_stripRefs] at hp
        obtain ⟨hyF, hyI, hyu⟩ := hp
        rw [hL, Finset.mem_erase]
        refine ⟨hyF, ?_⟩
        rcases Finset.mem_union.mp hyu with hy | hy
        · exact (hc a hI).1 (y, t) hy
        · exact (hc From hF).1 (y, t) hy
      · rw [(hx a haL haF haI).1, mem_redirectTo hne] at hp
        rw [hL, Finset.mem_erase]
        by_cases hyI : y = Into
        · subst hyI
          exact ⟨Ne.symm hne, hI⟩
        · rw [if_neg hyI] at hp
          exact ⟨hp.1, (hc a haL).1 (y, t) hp.2⟩
    · rintro ⟨y, t⟩ hp
      by_cases haI : a = Into
      · subst haI
        rw [hpI, mem_stripRefs] at hp
        obtain ⟨hyF, hyI, hyu⟩ := hp
        rw [hL, Finset.mem_erase]
        refine ⟨hyF, ?_⟩
        rcases Finset.mem_union.mp hyu with hy | hy
        · exact (hc a hI).2 (y, t) hy
        · exact (hc From hF).2 (y, t) hy
      · rw [(hx a haL haF haI).2, mem_redirectTo hne] at hp
        rw [hL, Finset.mem_erase]
        by_cases hyI : y = Into
        · subst hyI
          exact ⟨Ne.symm hne, hI⟩
        · rw [if_neg hyI] at hp
          exact ⟨hp.1, (hc a haL).2 (y, t) hp.2⟩
  · intro a ha
    rw [hL] at ha
    obtain ⟨haF, haL⟩ := Finset.mem_erase.mp ha
    constructor
    · rintro ⟨y, t⟩ hp
      by_cases haI : a = Into
      · subst haI
        rw [hsI, mem_stripRefs] at hp
        obtain ⟨hyF, hyI, hyu⟩ := hp
        have hyL : y ∈ st.Layouts := by
          rcases Finset.mem_union.mp hyu with hy | hy
          · exact (hc a hI).1 (y, t) hy
          · exact (hc From hF).1 (y, t) hy
        rw [(hx y hyL hyF hyI).2, mem_redirectTo hne, if_pos rfl]
        rcases Finset.mem_union.mp hyu with hy | hy
        · exact Or.inl ((hm a hI).1 (y, t) hy)
        · exact Or.inr ((hm From hF).1 (y, t) hy)
      · rw [(hx a haL haF haI).1, mem_redirectTo hne] at hp
        by_cases hyI : y = Into
        · subst hyI
          rw [if_pos rfl] at hp
          rw [hpI, mem_stripRefs]
          refine ⟨haF, haI, ?_⟩
          rw [Finset.mem_union]
          rcases hp with hy | hy
          · exact Or.inl ((hm a haL).1 (y, t) hy)
          · exact Or.inr ((hm a haL).1 (From, t) hy)
        · rw [if_neg hyI] at hp
          obtain ⟨hyF, hys⟩ := hp
          have hyL : y ∈ st.Layouts := (hc a haL).1 (y, t) hys
          rw [(hx y hyL hyF hyI).2, mem_redirectTo hne, if_neg haI]
          exact ⟨haF, (hm a haL).1 (y, t) hys⟩
    · rintro ⟨y, t⟩ hp
      by_cases haI : a = Into
      · subst haI
        rw [hpI, mem_stripRefs] at hp
        obtain ⟨hyF, hyI, hyu⟩ := hp
        have hyL : y ∈ st.Layouts := by
          rcases Finset.mem_union.mp hyu with hy | hy
          · exact (hc a hI).2 (y, t) hy
          · exact (hc From hF).2 (y, t) hy
        rw [(hx y hyL hyF hyI).1, mem_redirectTo hne, if_pos rfl]
        rcases Finset.mem_union.mp hyu with hy | hy
        · exact Or.inl ((hm a hI).2 (y, t) hy)
        · exact Or.inr ((hm From hF).2 (y, t) hy)
      · rw [(hx a haL haF haI).2, mem_redirectTo hne] at hp
        by_cases hyI : y = Into
        · subst hyI
          rw [if_pos rfl] at hp
          rw [hsI, mem_stripRefs]
          refine ⟨haF, haI, ?_⟩
          rw [Finset.mem_union]
          rcases hp with hy | hy
          · exact Or.inl ((hm a haL).2 (y, t) hy)
          · exact Or.inr ((hm a haL).2 (From, t) hy)
        · rw [if_neg hyI] at hp
          obtain ⟨hyF, hys⟩ := hp
          have hyL : y ∈ st.Layouts := (hc a haL).2 (y, t) hys
          rw [(hx y hyL hyF hyI).1, mem_redirectTo hne, if_neg haI]
          exact ⟨haF, (hm a haL).2 (y, t) hys⟩

/-- `mergeStep` preserves the symmetry of equality edges. -/
theorem mergeStep_EqSym (st : LayoutTypeSystem) (Into From : Nat)
    (st' : LayoutTypeSystem) (hc : Closed st) (hm : Mirrored st)
    (he : EqSym st) (hI : Into ∈ st.Layouts)
    (h : mergeStep st Into From = some st') : EqSym st' := by
  obtain ⟨hne, hF, hL, hx, hsI, hpI⟩ := mergeStep_spec st Into From st' hm h
  intro a ha b hb
  rw [hL] at ha hb
  obtain ⟨haF, haL⟩ := Finset.mem_erase.mp ha
  obtain ⟨hbF, hbL⟩ := Finset.mem_erase.mp hb
  by_cases haI : a = Into <;> by_cases hbI : b = Into
  · subst haI; subst hbI
    exact Iff.rfl
  · subst haI
    rw [hsI, mem_stripRefs, (hx b hbL hbF hbI).1, mem_redirectTo hne, if_pos rfl,
      Finset.mem_union]
    constructor
    · rintro ⟨_, _, hu⟩
      rcases hu with hu | hu
      · exact Or.inl ((he a hI b hbL).mp hu)
      · exact Or.inr ((he From hF b hbL).mp hu)
    · intro hu
      refine ⟨hbF, hbI, ?_⟩
      rcases hu with hu | hu
      · exact Or.inl ((he a hI b hbL).mpr hu)
      · exact Or.inr ((he From hF b hbL).mpr hu)
  · subst hbI
    rw [(hx a haL haF haI).1, mem_redirectTo hne, if_pos rfl, hsI, mem_stripRefs,
      Finset.mem_union]
    constructor
    · intro hu
      refine ⟨haF, haI, ?_⟩
      rcases hu with hu | hu
      · exact Or.inl ((he a haL b hI).mp hu)
      · exact Or.inr ((he a haL From hF).mp hu)
    · rintro ⟨_, _, hu⟩
      rcases hu with hu | hu
      · exact Or.inl ((he a haL b hI).mpr hu)
      · exact Or.inr ((he a haL From hF).mpr hu)
  · rw [(hx a haL haF haI).1, (hx b hbL hbF hbI).1, mem_redirectTo hne,
      mem_redirectTo hne, if_neg hbI, if_neg haI]
    constructor
    · rintro ⟨_, hmem⟩
      exact ⟨haF, (he a haL b hbL).mp hmem⟩
    · rintro ⟨_, hmem⟩
      exact ⟨hbF, (he a haL b hbL).mpr hmem⟩

/-- `mergeStep` preserves the absence of self edges, with no other invariant
needed. -/
theorem mergeStep_NS (st : LayoutTypeSystem) (Into From : Nat)
    (st' : LayoutTypeSystem) (hns : NoSelfEdges st)
    (h : mergeStep st Into From = some st') : NoSelfEdges st' := by
  obtain ⟨hne, hF, hL, hx, hsI, hpI⟩ := mergeStep_raw st Into From st' h
  intro a ha
  rw [hL] at ha
  obtain ⟨haF, haL⟩ := Finset.mem_erase.mp ha
  by_cases haI : a = Into
  · subst haI
    constructor
    · rintro ⟨y, t⟩ hp
      rw [hsI, mem_stripRefs] at hp
      exact hp.2.1
    · rintro ⟨y, t⟩ hp
      rw [hpI, mem_stripRefs] at hp
      exact hp.2.1
  · constructor
    · rintro ⟨y, t⟩ hp hya
      rw [(hx a haI).1] at hp
      have hya' : y = a := hya
      rw [hya'] at hp
      revert hp
      split
      · rw [mem_redirectTo hne, if_neg haI]
        rintro ⟨_, hmem⟩
        exact absurd rfl ((hns a haL).1 (a, t) hmem)
      · intro hmem
        exact absurd rfl ((hns a haL).1 (a, t) hmem)
    · rintro ⟨y, t⟩ hp hya
      rw [(hx a haI).2] at hp
      have hya' : y = a := hya
      rw [hya'] at hp
      revert hp
      split
      · rw [mem_redirectTo hne, if_neg haI]
        rintro ⟨_, hmem⟩
        exact absurd rfl ((hns a haL).2 (a, t) hmem)
      · intro hmem
        exact absurd rfl ((hns a haL).2 (a, t) hmem)

/-!
## Lifting the merge lemmas to mergeLoop and mergeNodes
-/

theorem mergeLoop_CM (Into : Nat) :
    ∀ (rest : List Nat) (st st' : LayoutTypeSystem),
      Closed st → Mirrored st → Into ∈ st.Layouts →
      mergeLoop Into st rest = some st' → Closed st' ∧ Mirrored st' := by
  intro rest
  induction rest with
  | nil =>
    intro st st' hc hm _ h
    injection h with h'
    subst h'
    exact ⟨hc, hm⟩
  | cons From rest ih =>
    intro st st' hc hm hI h
    cases hstep : mergeStep st Into From with
    | none =>
      simp only [mergeLoop, hstep] at h
      exact Option.noConfusion h
    | some st1 =>
      simp only [mergeLoop, hstep] at h
      obtain ⟨hc1, hm1, hI1⟩ := mergeStep_CM st Into From st1 hc hm hI hstep
      exact ih st1 st' hc1 hm1 hI1 h

theorem mergeLoop_CME (Into : Nat) :
    ∀ (rest : List Nat) (st st' : LayoutTypeSystem),
      Closed st → Mirrored st → EqSym st → Into ∈ st.Layouts →
      mergeLoop Into st rest = some st' →
      Closed st' ∧ Mirrored st' ∧ EqSym st' := by
  intro rest
  induction rest with
  | nil =>
    intro st st' hc hm he _ h
    injection h with h'
    subst h'
    exact ⟨hc, hm, he⟩
  | cons From rest ih =>
    intro st st' hc hm he hI h
    cases hstep : mergeStep st Into From with
    | none =>
      simp only [mergeLoop, hstep] at h
      exact Option.noConfusion h
    | some st1 =>
      simp only [mergeLoop, hstep] at h
      obtain ⟨hc1, hm1, hI1⟩ := mergeStep_CM st Into From st1 hc hm hI hstep
      have he1 := mergeStep_EqSym st Into From st1 hc hm he hI hstep
      exact ih st1 st' hc1 hm1 he1 hI1 h

theorem mergeLoop_NS (Into : Nat) :
    ∀ (rest : List Nat) (st st' : LayoutTypeSystem),
      NoSelfEdges st → mergeLoop Into st rest = some st' → NoSelfEdges st' := by
  intro rest
  induction rest with
  | nil =>
    intro st st' hns h
    injection h with h'
    subst h'
    exact hns
  | cons From rest ih =>
    intro st st' hns h
    cases hstep : mergeStep st Into From with
    | none =>
      simp only [mergeLoop, hstep] at h
      exact Option.noConfusion h
    | some st1 =>
      simp only [mergeLoop, hstep] at h
      exact ih st1 st' (mergeStep_NS st Into From st1 hns hstep) h

theorem mergeNodes_CM (st : LayoutTypeSystem) (l : List Nat)
    (st' : LayoutTypeSystem) (hc : Closed st) (hm : Mirrored st)
    (h : mergeNodes st l = some st') : Closed st' ∧ Mirrored st' := by
  cases l with
  | nil => exact Option.noConfusion h
  | cons Into rest =>
    cases rest with
    | nil => exact Option.noConfusion h
    | cons b rest2 =>
      simp only [mergeNodes] at h
      split at h
      · exact mergeLoop_CM Into (b :: rest2) st st' hc hm (by assumption) h
      · exact Option.noConfusion h

theorem mergeNodes_CME (st : LayoutTypeSystem) (l : List Nat)
    (st' : LayoutTypeSystem) (hc : Closed st) (hm : Mirrored st) (he : EqSym st)
    (h : mergeNodes st l = some st') : Closed st' ∧ Mirrored st' ∧ EqSym st' := by
  cases l with
  | nil => exact Option.noConfusion h
  | cons Into rest =>
    cases rest with
    | nil => exact Option.noConfusion h
    | cons b rest2 =>
      simp only [mergeNodes] at h
      split at h
      · exact mergeLoop_CME Into (b :: rest2) st st' hc hm he (by assumption) h
      · exact Option.noConfusion h

theorem mergeNodes_NS (st : LayoutTypeSystem) (l : List Nat)
    (st' : LayoutTypeSystem) (hns : NoSelfEdges st)
    (h : mergeNodes st l = some st') : NoSelfEdges st' := by
  cases l with
  | nil => exact Option.noConfusion h
  | cons Into rest =>
    cases rest with
    | nil => exact Option.noConfusion h
    | cons b rest2 =>
      simp only [mergeNodes] at h
      split at h
      · exact mergeLoop_NS Into (b :: rest2) st st' hns h
      · exact Option.noConfusion h

/-!
## createArtificialLayoutType and addLink preservation
-/

theorem create_spec (st : LayoutTypeSystem) (n : Nat) (st' : LayoutTypeSystem)
    (h : createArtificialLayoutType st = some (n, st')) :
    st.NID ∉ st.Layouts ∧ st'.Layouts = insert st.NID st.Layouts ∧
    (∀ x, succs st' x = if x = st.NID then ∅ else succs st x) ∧
    (∀ x, preds st' x = if x = st.NID then ∅ else preds st x) := by
  unfold createArtificialLayoutType at h
  split at h
  · exact Option.noConfusion h
  · rename_i hfresh
    injection h with h'
    rw [Prod.mk.injEq] at h'
    obtain ⟨rfl, rfl⟩ := h'
    refine ⟨hfresh, rfl, ?_, ?_⟩
    · intro x
      simp only [succs]
      split <;> rfl
    · intro x
      simp only [preds]
      split <;> rfl

theorem create_CM (st : LayoutTypeSystem) (n : Nat) (st' : LayoutTypeSystem)
    (hc : Closed st) (hm : Mirrored st)
    (h : createArtificialLayoutType st = some (n, st')) :
    Closed st' ∧ Mirrored st' := by
  obtain ⟨hfresh, hL, hs, hp⟩ := create_spec st n st' h
  have hnotnew : ∀ a ∈ st.Layouts, a ≠ st.NID := fun a ha he =>
    hfresh (he ▸ ha)
  constructor
  · intro a ha
    rw [hL, Finset.mem_insert] at ha
    rcases ha with ha | ha
    · rw [hL]
      constructor <;> intro p hp2
      · rw [hs a, if_pos ha] at hp2
        exact absurd hp2 (Finset.not_mem_empty p)
      · rw [hp a, if_pos ha] at hp2
        exact absurd hp2 (Finset.not_mem_empty p)
    · constructor <;> intro p hp2
      · rw [hs a, if_neg (hnotnew a ha)] at hp2
        rw [hL, Finset.mem_insert]
        exact Or.inr ((hc a ha).1 p hp2)
      · rw [hp a, if_neg (hnotnew a ha)] at hp2
        rw [hL, Finset.mem_insert]
        exact Or.inr ((hc a ha).2 p hp2)
  · intro a ha
    rw [hL, Finset.mem_insert] at ha
    rcases ha with ha | ha
    · constructor <;> intro p hp2
      · rw [hs a, if_pos ha] at hp2
        exact absurd hp2 (Finset.not_mem_empty p)
      · rw [hp a, if_pos ha] at hp2
        exact absurd hp2 (Finset.not_mem_empty p)
    · constructor <;> intro p hp2
      · rw [hs a, if_neg (hnotnew a ha)] at hp2
        have hpL : p.1 ∈ st.Layouts := (hc a ha).1 p hp2
        rw [hp p.1, if_neg (hnotnew p.1 hpL)]
        exact (hm a ha).1 p hp2
      · rw [hp a, if_neg (hnotnew a ha)] at hp2
        have hpL : p.1 ∈ st.Layouts := (hc a ha).2 p hp2
        rw [hs p.1, if_neg (hnotnew p.1 hpL)]
        exact (hm a ha).2 p hp2

theorem create_NS (st : LayoutTypeSystem) (n : Nat) (st' : LayoutTypeSystem)
    (hns : NoSelfEdges st)
    (h : createArtificialLayoutType st = some (n, st')) : NoSelfEdges st' := by
  obtain ⟨hfresh, hL, hs, hp⟩ := create_spec st n st' h
  intro a ha
  rw [hL, Finset.mem_insert] at ha
  rcases ha with ha | ha
  · constructor <;> intro p hp2
    · rw [hs a, if_pos ha] at hp2
      exact absurd hp2 (Finset.not_mem_empty p)
    · rw [hp a, if_pos ha] at hp2
      exact absurd hp2 (Finset.not_mem_empty p)
  · have hne : a ≠ st.NID := fun he => hfresh (he ▸ ha)
    constructor <;> intro p hp2
    · rw [hs a, if_neg hne] at hp2
      exact (hns a ha).1 p hp2
    · rw [hp a, if_neg hne] at hp2
      exact (hns a ha).2 p hp2

theorem create_EqSym (st : LayoutTypeSystem) (n : Nat) (st' : LayoutTypeSystem)
    (hc : Closed st) (he : EqSym st)
    (h : createArtificialLayoutType st = some (n, st')) : EqSym st' := by
  obtain ⟨hfresh, hL, hs, hp⟩ := create_spec st n st' h
  intro a ha b hb
  rw [hL, Finset.mem_insert] at ha hb
  have hnotnew : ∀ z ∈ st.Layouts, z ≠ st.NID := fun z hz hze => hfresh (hze ▸ hz)
  rcases ha with ha | ha
  · rw [hs a, if_pos ha]
    rcases hb with hb | hb
    · rw [hs b, if_pos hb]
      constructor <;>
        (intro hmem; exact absurd hmem (Finset.not_mem_empty _))
    · rw [hs b, if_neg (hnotnew b hb)]
      constructor
      · intro hmem
        exact absurd hmem (Finset.not_mem_empty _)
      · intro hmem
        have := (hc b hb).1 (a, .LK_Equality) hmem
        exact absurd this (by rw [ha]; exact hfresh)
  · rw [hs a, if_neg (hnotnew a ha)]
    rcases hb with hb | hb
    · rw [hs b, if_pos hb]
      constructor
      · intro hmem
        have := (hc a ha).1 (b, .LK_Equality) hmem
        exact absurd this (by rw [hb]; exact hfresh)
      · intro hmem
        exact absurd hmem (Finset.not_mem_empty _)
    · rw [hs b, if_neg (hnotnew b hb)]
      exact he a ha b hb

theorem succs_addLink_state (st : LayoutTypeSystem) (s t : Nat)
    (Tag : TypeLinkTag) (hne : s ≠ t) (x : Nat) :
    succs (updNode (updNode { st with LinkTags := insert Tag st.LinkTags } s
        (fun nd => { nd with Successors := insert (t, Tag) nd.Successors })) t
        (fun nd => { nd with Predecessors := insert (s, Tag) nd.Predecessors })) x =
      (if x = s then insert (t, Tag) (succs st s) else succs st x) := by
  rw [succs_updNode_keep _ t
    (fun nd => { nd with Predecessors := insert (s, Tag) nd.Predecessors }) x
    (fun _ => rfl)]
  simp only [succs, nodes_updNode]
  split
  · rename_i hxs
    rw [hxs]
  · rfl

theorem preds_addLink_state (st : LayoutTypeSystem) (s t : Nat)
    (Tag : TypeLinkTag) (hne : s ≠ t) (x : Nat) :
    preds (updNode (updNode { st with LinkTags := insert Tag st.LinkTags } s
        (fun nd => { nd with Successors := insert (t, Tag) nd.Successors })) t
        (fun nd => { nd with Predecessors := insert (s, Tag) nd.Predecessors })) x =
      (if x = t then insert (s, Tag) (preds st t) else preds st x) := by
  simp only [preds, nodes_updNode]
  split
  · rename_i hxt
    rw [hxt]
    rw [if_neg (Ne.symm hne)]
  · split <;> rfl

/-- Either `addLink` is a no-op or it inserts one mirrored pair between two
distinct live nodes. -/
theorem addLink_spec (st : LayoutTypeSystem) (a b : Option Nat)
    (Tag : TypeLinkTag) (r : Option TypeLinkTag × Bool) (st' : LayoutTypeSystem)
    (h : addLink st a b Tag = some (r, st')) :
    st' = st ∨
    ∃ s t, a = some s ∧ b = some t ∧ s ≠ t ∧ s ∈ st.Layouts ∧ t ∈ st.Layouts ∧
      st'.Layouts = st.Layouts ∧
      (∀ x, succs st' x = if x = s then insert (t, Tag) (succs st s) else succs st x) ∧
      (∀ x, preds st' x = if x = t then insert (s, Tag) (preds st t) else preds st x) := by
  cases a with
  | none =>
    simp only [addLink] at h
    injection h with h'
    rw [Prod.mk.injEq] at h'
    exact Or.inl h'.2.symm
  | some s =>
    cases b with
    | none =>
      simp only [addLink] at h
      injection h with h'
      rw [Prod.mk.injEq] at h'
      exact Or.inl h'.2.symm
    | some t =>
      by_cases hst : s = t
      · simp only [addLink, if_pos hst] at h
        injection h with h'
        rw [Prod.mk.injEq] at h'
        exact Or.inl h'.2.symm
      · by_cases hlive : s ∈ st.Layouts ∧ t ∈ st.Layouts
        · rw [addLink_eq st s t Tag hst hlive.1 hlive.2] at h
          injection h with h'
          rw [Prod.mk.injEq] at h'
          refine Or.inr ⟨s, t, rfl, rfl, hst, hlive.1, hlive.2, ?_, ?_, ?_⟩
          · rw [← h'.2]
            rfl
          · intro x
            rw [← h'.2]
            exact succs_addLink_state st s t Tag hst x
          · intro x
            rw [← h'.2]
            exact preds_addLink_state st s t Tag hst x
        · simp only [addLink, if_neg hst, if_neg hlive] at h
          exact Option.noConfusion h

theorem addLink_CM (st : LayoutTypeSystem) (a b : Option Nat)
    (Tag : TypeLinkTag) (r : Option TypeLinkTag × Bool) (st' : LayoutTypeSystem)
    (hc : Closed st) (hm : Mirrored st)
    (h : addLink st a b Tag = some (r, st')) : Closed st' ∧ Mirrored st' := by
  rcases addLink_spec st a b Tag r st' h with rfl | ⟨s, t, _, _, hst, hs, ht, hL, hS, hP⟩
  · exact ⟨hc, hm⟩
  constructor
  · intro x hx
    rw [hL] at hx
    rw [hL]
    constructor <;> intro p hp2
    · rw [hS x] at hp2
      by_cases hxs : x = s
      · rw [if_pos hxs, Finset.mem_insert] at hp2
        rcases hp2 with rfl | hp2
        · exact ht
        · exact (hc s hs).1 p hp2
      · rw [if_neg hxs] at hp2
        exact (hc x hx).1 p hp2
    · rw [hP x] at hp2
      by_cases hxt : x = t
      · rw [if_pos hxt, Finset.mem_insert] at hp2
        rcases hp2 with rfl | hp2
        · exact hs
        · exact (hc t ht).2 p hp2
      · rw [if_neg hxt] at hp2
        exact (hc x hx).2 p hp2
  · intro x hx
    rw [hL] at hx
    constructor <;> intro p hp2
    · rw [hS x] at hp2
      by_cases hxs : x = s
      · subst hxs
        rw [if_pos rfl, Finset.mem_insert] at hp2
        rcases hp2 with rfl | hp2
        · rw [hP t, if_pos rfl]
          exact Finset.mem_insert_self _ _
        · rw [hP p.1]
          by_cases hpt : p.1 = t
          · rw [if_pos hpt]
            refine Finset.mem_insert_of_mem ?_
            rw [← hpt]
            exact (hm x hx).1 p hp2
          · rw [if_neg hpt]
            exact (hm x hx).1 p hp2
      · rw [if_neg hxs] at hp2
        rw [hP p.1]
        by_cases hpt : p.1 = t
        · rw [if_pos hpt]
          refine Finset.mem_insert_of_mem ?_
          rw [← hpt]
          exact (hm x hx).1 p hp2
        · rw [if_neg hpt]
          exact (hm x hx).1 p hp2
    · rw [hP x] at hp2
      by_cases hxt : x = t
      · subst hxt
        rw [if_pos rfl, Finset.mem_insert] at hp2
        rcases hp2 with rfl | hp2
        · rw [hS s, if_pos rfl]
          exact Finset.mem_insert_self _ _
        · rw [hS p.1]
          by_cases hps : p.1 = s
          · rw [if_pos hps]
            refine Finset.mem_insert_of_mem ?_
            rw [← hps]
            exact (hm x hx).2 p hp2
          · rw [if_neg hps]
            exact (hm x hx).2 p hp2
      · rw [if_neg hxt] at hp2
        rw [hS p.1]
        by_cases hps : p.1 = s
        · rw [if_pos hps]
          refine Finset.mem_insert_of_mem ?_
          rw [← hps]
          exact (hm x hx).2 p hp2
        · rw [if_neg hps]
          exact (hm x hx).2 p hp2

theorem addLink_NS (st : LayoutTypeSystem) (a b : Option Nat)
    (Tag : TypeLinkTag) (r : Option TypeLinkTag × Bool) (st' : LayoutTypeSystem)
    (hns : NoSelfEdges st)
    (h : addLink st a b Tag = some (r, st')) : NoSelfEdges st' := by
  rcases addLink_spec st a b Tag r st' h with rfl | ⟨s, t, _, _, hst, hs, ht, hL, hS, hP⟩
  · exact hns
  intro x hx
  rw [hL] at hx
  constructor <;> intro p hp2
  · rw [hS x] at hp2
    by_cases hxs : x = s
    · subst hxs
      rw [if_pos rfl, Finset.mem_insert] at hp2
      rcases hp2 with rfl | hp2
      · exact Ne.symm hst
      · exact (hns x hx).1 p hp2
    · rw [if_neg hxs] at hp2
      exact (hns x hx).1 p hp2
  · rw [hP x] at hp2
    by_cases hxt : x = t
    · subst hxt
      rw [if_pos rfl, Finset.mem_insert] at hp2
      rcases hp2 with rfl | hp2
      · exact hst
      · exact (hns x hx).2 p hp2
    · rw [if_neg hxt] at hp2
      exact (hns x hx).2 p hp2

/-!
## moveEdgeWithoutSumming preservation
-/

theorem succs_mews_state (st : LayoutTypeSystem) (o n : Nat) (E : Link) (x : Nat) :
    succs (updNode (updNode (updNode st o
        (fun nd => { nd with Successors := nd.Successors.erase E })) n
        (fun nd => { nd with Successors := insert E nd.Successors })) E.1
        (fun nd =>
          { nd with Predecessors :=
              insert (n, E.2) (nd.Predecessors.erase (o, E.2)) })) x =
      (if x = n then
        insert E (if x = o then (succs st x).erase E else succs st x)
      else if x = o then (succs st x).erase E else succs st x) := by
  simp only [succs, nodes_updNode]
  split_ifs <;> rfl

theorem preds_mews_state (st : LayoutTypeSystem) (o n : Nat) (E : Link) (x : Nat) :
    preds (updNode (updNode (updNode st o
        (fun nd => { nd with Successors := nd.Successors.erase E })) n
        (fun nd => { nd with Successors := insert E nd.Successors })) E.1
        (fun nd =>
          { nd with Predecessors :=
              insert (n, E.2) (nd.Predecessors.erase (o, E.2)) })) x =
      (if x = E.1 then insert (n, E.2) ((preds st x).erase (o, E.2))
       else preds st x) := by
  simp only [preds, nodes_updNode]
  split_ifs <;> rfl

/-- Full characterization of a successful `moveEdgeWithoutSumming`: the edge
is re-sourced from `OldSrc` to `NewSrc` and the mirrored predecessor entry of
the target is re-keyed accordingly; everything else is untouched. -/
theorem mews_spec (st : LayoutTypeSystem) (o n : Nat) (E : Link)
    (st' : LayoutTypeSystem) (h : moveEdgeWithoutSumming st o n E = some st') :
    o ∈ st.Layouts ∧ n ∈ st.Layouts ∧ E.1 ∈ st.Layouts ∧ E ∈ succs st o ∧
    st'.Layouts = st.Layouts ∧ st'.LinkTags = st.LinkTags ∧
    (∀ x, (st'.nodes x).Size = (st.nodes x).Size) ∧
    (∀ x, (st'.nodes x).InterferingInfo = (st.nodes x).InterferingInfo) ∧
    (∀ x p, p ∈ succs st' x ↔
      ((x = n ∧ p = E) ∨ (p ∈ succs st x ∧ (x = o → p ≠ E)))) ∧
    (∀ x p, p ∈ preds st' x ↔
      ((x = E.1 ∧ p = (n, E.2)) ∨
        (p ∈ preds st x ∧ ¬(x = E.1 ∧ p = (o, E.2))))) := by
  simp only [moveEdgeWithoutSumming] at h
  split at h
  · exact Option.noConfusion h
  split at h
  · exact Option.noConfusion h
  split at h
  · exact Option.noConfusion h
  rename_i hlive hE hpre
  push_neg at hlive
  rw [not_not] at hE
  injection h with h'
  subst h'
  refine ⟨hlive.1, hlive.2.1, hlive.2.2, hE, rfl, rfl, ?_, ?_, ?_, ?_⟩
  · intro x
    simp only [nodes_updNode]
    repeat' split
    all_goals rfl
  · intro x
    simp only [nodes_updNode]
    repeat' split
    all_goals rfl
  · intro x p
    rw [succs_mews_state st o n E x]
    by_cases hxn : x = n
    · by_cases hxo : x = o
      · rw [if_pos hxn, if_pos hxo, Finset.mem_insert, Finset.mem_erase]
        constructor
        · rintro (rfl | ⟨hne, hp⟩)
          · exact Or.inl ⟨hxn, rfl⟩
          · exact Or.inr ⟨hp, fun _ => hne⟩
        · rintro (⟨-, rfl⟩ | ⟨hp, himp⟩)
          · exact Or.inl rfl
          · exact Or.inr ⟨himp hxo, hp⟩
      · rw [if_pos hxn, if_neg hxo, Finset.mem_insert]
        constructor
        · rintro (rfl | hp)
          · exact Or.inl ⟨hxn, rfl⟩
          · exact Or.inr ⟨hp, fun hxo2 => absurd hxo2 hxo⟩
        · rintro (⟨-, rfl⟩ | ⟨hp, -⟩)
          · exact Or.inl rfl
          · exact Or.inr hp
    · by_cases hxo : x = o
      · rw [if_neg hxn, if_pos hxo, Finset.mem_erase]
        constructor
        · rintro ⟨hne, hp⟩
          exact Or.inr ⟨hp, fun _ => hne⟩
        · rintro (⟨hn, -⟩ | ⟨hp, himp⟩)
          · exact absurd hn hxn
          · exact ⟨himp hxo, hp⟩
      · rw [if_neg hxn, if_neg hxo]
        constructor
        · intro hp
          exact Or.inr ⟨hp, fun hxo2 => absurd hxo2 hxo⟩
        · rintro (⟨hn, -⟩ | ⟨hp, -⟩)
          · exact absurd hn hxn
          · exact hp
  · intro x p
    rw [preds_mews_state st o n E x]
    by_cases hxE : x = E.1
    · rw [if_pos hxE, Finset.mem_insert, Finset.mem_erase]
      constructor
      · rintro (rfl | ⟨hne, hp⟩)
        · exact Or.inl ⟨hxE, rfl⟩
        · exact Or.inr ⟨hp, fun hand => hne hand.2⟩
      · rintro (⟨-, rfl⟩ | ⟨hp, himp⟩)
        · exact Or.inl rfl
        · exact Or.inr ⟨fun hpe => himp ⟨hxE, hpe⟩, hp⟩
    · rw [if_neg hxE]
      constructor
      · intro hp
        exact Or.inr ⟨hp, fun hand => absurd hand.1 hxE⟩
      · rintro (⟨hn, -⟩ | ⟨hp, -⟩)
        · exact absurd hn hxE
        · exact hp

theorem mews_CM (st : LayoutTypeSystem) (o n : Nat) (E : Link)
    (st' : LayoutTypeSystem) (hc : Closed st) (hm : Mirrored st)
    (h : moveEdgeWithoutSumming st o n E = some st') :
    Closed st' ∧ Mirrored st' := by
  obtain ⟨ho, hn, hT, hEs, hL, -, -, -, hS, hP⟩ := mews_spec st o n E st' h
  constructor
  · intro x hx
    rw [hL] at hx ⊢
    constructor
    · intro p hp
      rcases (hS x p).mp hp with ⟨rfl, rfl⟩ | ⟨hp2, -⟩
      · exact hT
      · exact (hc x hx).1 p hp2
    · intro p hp
      rcases (hP x p).mp hp with ⟨rfl, rfl⟩ | ⟨hp2, -⟩
      · exact hn
      · exact (hc x hx).2 p hp2
  · intro x hx
    rw [hL] at hx
    constructor
    · intro p hp
      rcases (hS x p).mp hp with ⟨rfl, rfl⟩ | ⟨hp2, himp⟩
      · exact (hP p.1 (x, p.2)).mpr (Or.inl ⟨rfl, rfl⟩)
      · refine (hP p.1 (x, p.2)).mpr (Or.inr ⟨(hm x hx).1 p hp2, ?_⟩)
        rintro ⟨h1, h2⟩
        rw [Prod.mk.injEq] at h2
        obtain ⟨rfl, h22⟩ := h2
        exact himp rfl (Prod.ext h1 h22)
    · intro p hp
      rcases (hP x p).mp hp with ⟨rfl, rfl⟩ | ⟨hp2, hnand⟩
      · exact (hS n (E.1, E.2)).mpr (Or.inl ⟨rfl, Prod.ext rfl rfl⟩)
      · refine (hS p.1 (x, p.2)).mpr (Or.inr ⟨(hm x hx).2 p hp2, ?_⟩)
        intro hpo heq
        cases heq
        exact hnand ⟨rfl, Prod.ext hpo rfl⟩

theorem mews_NS (st : LayoutTypeSystem) (o n : Nat) (E : Link)
    (st' : LayoutTypeSystem) (hns : NoSelfEdges st) (hnT : n ≠ E.1)
    (h : moveEdgeWithoutSumming st o n E = some st') : NoSelfEdges st' := by
  obtain ⟨ho, hn, hT, hEs, hL, -, -, -, hS, hP⟩ := mews_spec st o n E st' h
  intro x hx
  rw [hL] at hx
  constructor
  · intro p hp
    rcases (hS x p).mp hp with ⟨rfl, rfl⟩ | ⟨hp2, -⟩
    · exact fun hne2 => hnT hne2.symm
    · exact (hns x hx).1 p hp2
  · intro p hp
    rcases (hP x p).mp hp with ⟨rfl, rfl⟩ | ⟨hp2, -⟩
    · exact hnT
    · exact (hns x hx).2 p hp2

theorem mews_EqSym (st : LayoutTypeSystem) (o n : Nat) (E : Link)
    (st' : LayoutTypeSystem) (he : EqSym st) (hne : E.2 ≠ .LK_Equality)
    (h : moveEdgeWithoutSumming st o n E = some st') : EqSym st' := by
  obtain ⟨ho, hn, hT, hEs, hL, -, -, -, hS, hP⟩ := mews_spec st o n E st' h
  intro a ha b hb
  rw [hL] at ha hb
  have key : ∀ u v : Nat,
      ((v, TypeLinkTag.LK_Equality) ∈ succs st' u ↔
        (v, TypeLinkTag.LK_Equality) ∈ succs st u) := by
    intro u v
    rw [hS u (v, TypeLinkTag.LK_Equality)]
    constructor
    · rintro (⟨-, hE2⟩ | ⟨hp, -⟩)
      · exact absurd (congrArg Prod.snd hE2).symm hne
      · exact hp
    · intro hp
      refine Or.inr ⟨hp, fun _ hE2 => ?_⟩
      exact hne (congrArg Prod.snd hE2).symm
  rw [key a b, key b a]
  exact he a ha b hb

/-!
## removeNode preservation
-/

/-- Raw characterization of a successful `removeNode`: the node must be live,
it is erased from `Layouts`, tags / sizes / interference data are untouched,
every adjacency set either stays or loses exactly its `(n, ·)` entries, and
the filtering is guaranteed for the recorded neighbors of `n`. -/
theorem removeNode_spec (st : LayoutTypeSystem) (n : Nat)
    (st' : LayoutTypeSystem) (h : removeNode st n = some st') :
    n ∈ st.Layouts ∧ st'.Layouts = st.Layouts.erase n ∧
    st'.LinkTags = st.LinkTags ∧ st'.EqClasses = st.EqClasses.remove n ∧
    (∀ x, (st'.nodes x).Size = (st.nodes x).Size) ∧
    (∀ x, (st'.nodes x).InterferingInfo = (st.nodes x).InterferingInfo) ∧
    (∀ x, succs st' x = succs st x ∨
      succs st' x = (succs st x).filter (fun p => p.1 ≠ n)) ∧
    (∀ x, preds st' x = preds st x ∨
      preds st' x = (preds st x).filter (fun p => p.1 ≠ n)) ∧
    (∀ x, x ≠ n → (∃ T, (x, T) ∈ preds st n) →
      succs st' x = (succs st x).filter (fun p => p.1 ≠ n)) ∧
    (∀ x, (∃ T, (x, T) ∈ succs st n) →
      preds st' x = (preds st x).filter (fun p => p.1 ≠ n)) := by
  simp only [removeNode] at h
  split at h
  · exact Option.noConfusion h
  rename_i hlive
  rw [not_not] at hlive
  injection h with h'
  subst h'
  refine ⟨hlive, rfl, rfl, rfl, ?_, ?_, ?_, ?_, ?_, ?_⟩
  · intro x
    simp only [nodes_updNodesIn]
    repeat' split
    all_goals rfl
  · intro x
    simp only [nodes_updNodesIn]
    repeat' split
    all_goals rfl
  · intro x
    simp only [succs, preds, nodes_updNodesIn, Successors_ite,
      Predecessors_ite, ite_self]
    repeat' split
    all_goals first
    | exact Or.inl rfl
    | exact Or.inr rfl
  · intro x
    simp only [succs, preds, nodes_updNodesIn, Successors_ite,
      Predecessors_ite, ite_self]
    repeat' split
    all_goals first
    | exact Or.inl rfl
    | exact Or.inr rfl
  · intro x hxn hex
    obtain ⟨T, hT⟩ := hex
    simp only [preds] at hT
    simp only [succs, preds, nodes_updNodesIn, Successors_ite,
      Predecessors_ite, ite_self]
    split
    · split
      · rfl
      · rename_i hC2
        exfalso
        apply hC2
        rw [Finset.mem_image]
        exact ⟨(x, T), Finset.mem_filter.mpr ⟨hT, hxn⟩, rfl⟩
    · split
      · rfl
      · rename_i hC2
        exfalso
        apply hC2
        rw [Finset.mem_image]
        exact ⟨(x, T), hT, rfl⟩
  · intro x hex
    obtain ⟨T, hT⟩ := hex
    simp only [succs] at hT
    simp only [succs, preds, nodes_updNodesIn, Successors_ite,
      Predecessors_ite, ite_self]
    split
    · rfl
    · rename_i hC1
      exfalso
      apply hC1
      rw [Finset.mem_image]
      exact ⟨(x, T), hT, rfl⟩

/-- In a closed mirrored graph, `removeNode` leaves every surviving node's
adjacency sets exactly stripped of the entries naming the removed node. -/
theorem removeNode_mem (st : LayoutTypeSystem) (n : Nat) (st' : LayoutTypeSystem)
    (hc : Closed st) (hm : Mirrored st) (h : removeNode st n = some st') :
    ∀ x ∈ st.Layouts, x ≠ n →
      succs st' x = (succs st x).filter (fun p => p.1 ≠ n) ∧
      preds st' x = (preds st x).filter (fun p => p.1 ≠ n) := by
  obtain ⟨hn, hL, hlt, hec, hsz, hii, hso, hpo, hsf, hpf⟩ :=
    removeNode_spec st n st' h
  intro x hx hxn
  constructor
  · by_cases hex : ∃ T, (x, T) ∈ preds st n
    · exact hsf x hxn hex
    · have hnone : ∀ p ∈ succs st x, p.1 ≠ n := by
        intro p hp hpn
        refine hex ⟨p.2, ?_⟩
        rw [← hpn]
        exact (hm x hx).1 p hp
      rcases hso x with he | he
      · rw [he]
        exact (Finset.filter_eq_self.mpr hnone).symm
      · rw [he]
  · by_cases hex : ∃ T, (x, T) ∈ succs st n
    · exact hpf x hex
    · have hnone : ∀ p ∈ preds st x, p.1 ≠ n := by
        intro p hp hpn
        refine hex ⟨p.2, ?_⟩
        rw [← hpn]
        exact (hm x hx).2 p hp
      rcases hpo x with he | he
      · rw [he]
        exact (Finset.filter_eq_self.mpr hnone).symm
      · rw [he]

theorem removeNode_CM (st : LayoutTypeSystem) (n : Nat) (st' : LayoutTypeSystem)
    (hc : Closed st) (hm : Mirrored st) (h : removeNode st n = some st') :
    Closed st' ∧ Mirrored st' := by
  obtain ⟨hn, hL, -, -, -, -, hso, hpo, -, -⟩ := removeNode_spec st n st' h
  have hmem := removeNode_mem st n st' hc hm h
  constructor
  · intro x hx
    rw [hL] at hx
    obtain ⟨hxn, hxL⟩ := Finset.mem_erase.mp hx
    obtain ⟨hsx, hpx⟩ := hmem x hxL hxn
    rw [hL]
    constructor
    · intro p hp
      rw [hsx, Finset.mem_filter] at hp
      exact Finset.mem_erase.mpr ⟨hp.2, (hc x hxL).1 p hp.1⟩
    · intro p hp
      rw [hpx, Finset.mem_filter] at hp
      exact Finset.mem_erase.mpr ⟨hp.2, (hc x hxL).2 p hp.1⟩
  · intro x hx
    rw [hL] at hx
    obtain ⟨hxn, hxL⟩ := Finset.mem_erase.mp hx
    obtain ⟨hsx, hpx⟩ := hmem x hxL hxn
    constructor
    · intro p hp
      rw [hsx, Finset.mem_filter] at hp
      have hp1L : p.1 ∈ st.Layouts := (hc x hxL).1 p hp.1
      obtain ⟨-, hp1⟩ := hmem p.1 hp1L hp.2
      rw [hp1, Finset.mem_filter]
      exact ⟨(hm x hxL).1 p hp.1, hxn⟩
    · intro p hp
      rw [hpx, Finset.mem_filter] at hp
      have hp1L : p.1 ∈ st.Layouts := (hc x hxL).2 p hp.1
      obtain ⟨hs1, -⟩ := hmem p.1 hp1L hp.2
      rw [hs1, Finset.mem_filter]
      exact ⟨(hm x hxL).2 p hp.1, hxn⟩

theorem removeNode_NS (st : LayoutTypeSystem) (n : Nat) (st' : LayoutTypeSystem)
    (hns : NoSelfEdges st) (h : removeNode st n = some st') :
    NoSelfEdges st' := by
  obtain ⟨hn, hL, -, -, -, -, hso, hpo, -, -⟩ := removeNode_spec st n st' h
  have hssub : ∀ y, succs st' y ⊆ succs st y := by
    intro y
    rcases hso y with he | he
    · rw [he]
    · rw [he]
      exact Finset.filter_subset _ _
  have hpsub : ∀ y, preds st' y ⊆ preds st y := by
    intro y
    rcases hpo y with he | he
    · rw [he]
    · rw [he]
      exact Finset.filter_subset _ _
  intro x hx
  rw [hL] at hx
  obtain ⟨-, hxL⟩ := Finset.mem_erase.mp hx
  constructor
  · intro p hp
    exact (hns x hxL).1 p (hssub x hp)
  · intro p hp
    exact (hns x hxL).2 p (hpsub x hp)

theorem removeNode_EqSym (st : LayoutTypeSystem) (n : Nat)
    (st' : LayoutTypeSystem) (hc : Closed st) (hm : Mirrored st) (he : EqSym st)
    (h : removeNode st n = some st') : EqSym st' := by
  obtain ⟨hn, hL, -, -, -, -, -, -, -, -⟩ := removeNode_spec st n st' h
  have hmem := removeNode_mem st n st' hc hm h
  intro a ha b hb
  rw [hL] at ha hb
  obtain ⟨han, haL⟩ := Finset.mem_erase.mp ha
  obtain ⟨hbn, hbL⟩ := Finset.mem_erase.mp hb
  obtain ⟨hsa, -⟩ := hmem a haL han
  obtain ⟨hsb, -⟩ := hmem b hbL hbn
  rw [hsa, hsb, Finset.mem_filter, Finset.mem_filter]
  constructor
  · rintro ⟨hmem1, -⟩
    exact ⟨(he a haL b hbL).mp hmem1, han⟩
  · rintro ⟨hmem1, -⟩
    exact ⟨(he a haL b hbL).mpr hmem1, hbn⟩

/-!
## moveEdge with a nonzero OffsetToSum
-/

theorem succs_eraseSucc_layer (B : LayoutTypeSystem) (m : Nat) (q : Link) (y : Nat) :
    succs (updNode B m (fun nd => { nd with Successors := nd.Successors.erase q })) y =
      (if y = m then (succs B y).erase q else succs B y) := by
  simp only [succs, nodes_updNode]
  split <;> rfl

theorem preds_erasePred_layer (B : LayoutTypeSystem) (m : Nat) (q : Link) (y : Nat) :
    preds (updNode B m (fun nd => { nd with Predecessors := nd.Predecessors.erase q })) y =
      (if y = m then (preds B y).erase q else preds B y) := by
  simp only [preds, nodes_updNode]
  split <;> rfl

/-- End-state characterization shared by every successful `moveEdge` call with
nonzero `OffsetToSum`: the original edge is extracted from `OldSrc`, the
rebased link is inserted through `addLink NewSrc Tgt NewTag` (a no-op when
`NewSrc = Tgt`), and the stale `(OldSrc, tag)` predecessor entry of the target
is erased. -/
theorem moveEdge_endstate (st : LayoutTypeSystem) (o n : Nat) (E : Link)
    (NewTag : TypeLinkTag) (r : Option TypeLinkTag × Bool)
    (st2 st' : LayoutTypeSystem)
    (hadd : addLink (updNode st o
        (fun nd => { nd with Successors := nd.Successors.erase E }))
        (some n) (some E.1) NewTag = some (r, st2))
    (hst' : st' = updNode st2 E.1
        (fun nd => { nd with Predecessors := nd.Predecessors.erase (o, E.2) })) :
    st'.Layouts = st.Layouts ∧
    (∀ x, (st'.nodes x).Size = (st.nodes x).Size) ∧
    (∀ x, (st'.nodes x).InterferingInfo = (st.nodes x).InterferingInfo) ∧
    ((n = E.1 ∧
      (∀ x p, p ∈ succs st' x ↔ (p ∈ succs st x ∧ (x = o → p ≠ E))) ∧
      (∀ x p, p ∈ preds st' x ↔
        (p ∈ preds st x ∧ ¬(x = E.1 ∧ p = (o, E.2))))) ∨
     (n ≠ E.1 ∧ n ∈ st.Layouts ∧
      (∀ x p, p ∈ succs st' x ↔
        ((x = n ∧ p = (E.1, NewTag)) ∨ (p ∈ succs st x ∧ (x = o → p ≠ E)))) ∧
      (∀ x p, p ∈ preds st' x ↔
        (¬(x = E.1 ∧ p = (o, E.2)) ∧
          ((x = E.1 ∧ p = (n, NewTag)) ∨ p ∈ preds st x))))) := by
  by_cases hnT : n = E.1
  · have haddeq : addLink (updNode st o
        (fun nd => { nd with Successors := nd.Successors.erase E }))
        (some n) (some E.1) NewTag =
        some ((none, false), updNode st o
          (fun nd => { nd with Successors := nd.Successors.erase E })) := by
      simp only [addLink]
      rw [if_pos hnT]
    rw [haddeq] at hadd
    injection hadd with h2
    rw [Prod.mk.injEq] at h2
    obtain ⟨-, h22⟩ := h2
    subst h22
    subst hst'
    refine ⟨rfl, ?_, ?_, Or.inl ⟨hnT, ?_, ?_⟩⟩
    · intro x
      simp only [nodes_updNode]
      repeat' split
      all_goals rfl
    · intro x
      simp only [nodes_updNode]
      repeat' split
      all_goals rfl
    · intro x p
      rw [succs_updNode_keep _ E.1
        (fun nd => { nd with Predecessors := nd.Predecessors.erase (o, E.2) })
        x (fun nd => rfl), succs_eraseSucc_layer st o E x]
      by_cases hxo : x = o
      · rw [if_pos hxo, Finset.mem_erase]
        constructor
        · rintro ⟨hne, hp⟩
          exact ⟨hp, fun _ => hne⟩
        · rintro ⟨hp, himp⟩
          exact ⟨himp hxo, hp⟩
      · rw [if_neg hxo]
        constructor
        · intro hp
          exact ⟨hp, fun h2 => absurd h2 hxo⟩
        · rintro ⟨hp, -⟩
          exact hp
    · intro x p
      rw [preds_erasePred_layer _ E.1 (o, E.2) x,
        preds_updNode_keep st o
          (fun nd => { nd with Successors := nd.Successors.erase E })
          x (fun nd => rfl)]
      by_cases hxE : x = E.1
      · rw [if_pos hxE, Finset.mem_erase]
        constructor
        · rintro ⟨hne, hp⟩
          exact ⟨hp, fun hand => hne hand.2⟩
        · rintro ⟨hp, hnand⟩
          exact ⟨fun hp2 => hnand ⟨hxE, hp2⟩, hp⟩
      · rw [if_neg hxE]
        constructor
        · intro hp
          exact ⟨hp, fun hand => absurd hand.1 hxE⟩
        · rintro ⟨hp, -⟩
          exact hp
  · by_cases hlv : n ∈ st.Layouts ∧ E.1 ∈ st.Layouts
    · rw [addLink_eq (updNode st o
          (fun nd => { nd with Successors := nd.Successors.erase E }))
          n E.1 NewTag hnT hlv.1 hlv.2] at hadd
      injection hadd with h2
      rw [Prod.mk.injEq] at h2
      obtain ⟨-, h22⟩ := h2
      subst h22
      subst hst'
      refine ⟨rfl, ?_, ?_, Or.inr ⟨hnT, hlv.1, ?_, ?_⟩⟩
      · intro x
        simp only [nodes_updNode]
        repeat' split
        all_goals rfl
      · intro x
        simp only [nodes_updNode]
        repeat' split
        all_goals rfl
      · intro x p
        rw [succs_updNode_keep _ E.1
          (fun nd => { nd with Predecessors := nd.Predecessors.erase (o, E.2) })
          x (fun nd => rfl), succs_addLink_state _ n E.1 NewTag hnT x,
          succs_eraseSucc_layer st o E n, succs_eraseSucc_layer st o E x]
        by_cases hxn : x = n
        · rw [if_pos hxn]
          by_cases hno : n = o
          · rw [if_pos hno, Finset.mem_insert, Finset.mem_erase]
            constructor
            · rintro (rfl | ⟨hne, hp⟩)
              · exact Or.inl ⟨hxn, rfl⟩
              · refine Or.inr ⟨?_, fun _ => hne⟩
                rw [hxn]
                exact hp
            · rintro (⟨-, rfl⟩ | ⟨hp, himp⟩)
              · exact Or.inl rfl
              · refine Or.inr ⟨himp (hxn.trans hno), ?_⟩
                rw [← hxn]
                exact hp
          · rw [if_neg hno, Finset.mem_insert]
            constructor
            · rintro (rfl | hp)
              · exact Or.inl ⟨hxn, rfl⟩
              · refine Or.inr ⟨?_, fun hxo => absurd (hxn.symm.trans hxo) hno⟩
                rw [hxn]
                exact hp
            · rintro (⟨-, rfl⟩ | ⟨hp, -⟩)
              · exact Or.inl rfl
              · refine Or.inr ?_
                rw [← hxn]
                exact hp
        · rw [if_neg hxn]
          by_cases hxo : x = o
          · rw [if_pos hxo, Finset.mem_erase]
            constructor
            · rintro ⟨hne, hp⟩
              exact Or.inr ⟨hp, fun _ => hne⟩
            · rintro (⟨hn2, -⟩ | ⟨hp, himp⟩)
              · exact absurd hn2 hxn
              · exact ⟨himp hxo, hp⟩
          · rw [if_neg hxo]
            constructor
            · intro hp
              exact Or.inr ⟨hp, fun h2 => absurd h2 hxo⟩
            · rintro (⟨hn2, -⟩ | ⟨hp, -⟩)
              · exact absurd hn2 hxn
              · exact hp
      · intro x p
        rw [preds_erasePred_layer _ E.1 (o, E.2) x,
          preds_addLink_state _ n E.1 NewTag hnT x,
          preds_updNode_keep st o
            (fun nd => { nd with Successors := nd.Successors.erase E })
            E.1 (fun nd => rfl),
          preds_updNode_keep st o
            (fun nd => { nd with Successors := nd.Successors.erase E })
            x (fun nd => rfl)]
        by_cases hxE : x = E.1
        · subst hxE
          rw [if_pos rfl, if_pos rfl, Finset.mem_erase, Finset.mem_insert]
          constructor
          · rintro ⟨hne, hin⟩
            refine ⟨fun hand => hne hand.2, ?_⟩
            rcases hin with rfl | hp
            · exact Or.inl ⟨rfl, rfl⟩
            · exact Or.inr hp
          · rintro ⟨hnand, hin⟩
            refine ⟨fun hpe => hnand ⟨rfl, hpe⟩, ?_⟩
            rcases hin with ⟨-, rfl⟩ | hp
            · exact Or.inl rfl
            · exact Or.inr hp
        · rw [if_neg hxE, if_neg hxE]
          constructor
          · intro hp
            exact ⟨fun hand => absurd hand.1 hxE, Or.inr hp⟩
          · rintro ⟨-, (⟨hx2, -⟩ | hp)⟩
            · exact absurd hx2 hxE
            · exact hp
    · exfalso
      have hnone : addLink (updNode st o
          (fun nd => { nd with Successors := nd.Successors.erase E }))
          (some n) (some E.1) NewTag = none := by
        simp only [addLink, Layouts_updNode]
        rw [if_neg hnT, if_neg hlv]
      rw [hnone] at hadd
      exact Option.noConfusion hadd

/-- `moveEdge` with `OffsetToSum = d ≠ 0`: the moved edge must be an
`Inheritance` or `Instance` edge, the rebased tag differs from the original
tag except for an `Inheritance` edge moved with negative `d`, and the end
state is the extract/re-add/strip-stale-predecessor composite of
`moveEdge_endstate`. -/
theorem moveEdge_sum_spec (st : LayoutTypeSystem) (o n : Nat) (E : Link)
    (d : Int) (st' : LayoutTypeSystem) (hd : d ≠ 0)
    (h : moveEdge st (some o) (some n) E d = some st') :
    ∃ NewTag : TypeLinkTag,
      NewTag ≠ TypeLinkTag.LK_Equality ∧
      (NewTag = E.2 → E.2 = TypeLinkTag.LK_Inheritance ∧ d < 0) ∧
      E.2 ≠ TypeLinkTag.LK_Equality ∧ E.2 ≠ TypeLinkTag.LK_Pointer ∧
      o ∈ st.Layouts ∧ E.1 ∈ st.Layouts ∧ E ∈ succs st o ∧
      st'.Layouts = st.Layouts ∧
      (∀ x, (st'.nodes x).Size = (st.nodes x).Size) ∧
      (∀ x, (st'.nodes x).InterferingInfo = (st.nodes x).InterferingInfo) ∧
      ((n = E.1 ∧
        (∀ x p, p ∈ succs st' x ↔ (p ∈ succs st x ∧ (x = o → p ≠ E))) ∧
        (∀ x p, p ∈ preds st' x ↔
          (p ∈ preds st x ∧ ¬(x = E.1 ∧ p = (o, E.2))))) ∨
       (n ≠ E.1 ∧ n ∈ st.Layouts ∧
        (∀ x p, p ∈ succs st' x ↔
          ((x = n ∧ p = (E.1, NewTag)) ∨ (p ∈ succs st x ∧ (x = o → p ≠ E)))) ∧
        (∀ x p, p ∈ preds st' x ↔
          (¬(x = E.1 ∧ p = (o, E.2)) ∧
            ((x = E.1 ∧ p = (n, NewTag)) ∨ p ∈ preds st x))))) := by
  simp only [moveEdge, addInstanceLink, addInheritanceLink] at h
  rw [if_neg hd] at h
  split at h
  · exact Option.noConfusion h
  split at h
  · exact Option.noConfusion h
  rename_i hlive hmemE
  push_neg at hlive
  rw [not_not] at hmemE
  rcases hE2 : E.2 with _ | _ | OE | _
  · rw [hE2] at h
    simp only [] at h
    by_cases hdp : 0 < d
    · rw [if_pos hdp] at h
      rcases hadd : addLink (updNode st o
          (fun nd => { nd with Successors := nd.Successors.erase E }))
          (some n) (some E.1)
          (TypeLinkTag.LK_Instance (OffsetExpression.ofOffset d))
          with _ | rpair
      · rw [hadd] at h
        exact Option.noConfusion h
      · obtain ⟨r, st2⟩ := rpair
        rw [hadd] at h
        injection h with h'
        rw [← hE2] at h'
        obtain ⟨hL, hsz, hii, hform⟩ :=
          moveEdge_endstate st o n E _ r st2 st' hadd h'.symm
        rw [hE2] at hform
        exact ⟨TypeLinkTag.LK_Instance (OffsetExpression.ofOffset d),
          fun hc => TypeLinkTag.noConfusion hc,
          fun heq => TypeLinkTag.noConfusion heq,
          fun hc => TypeLinkTag.noConfusion hc,
          fun hc => TypeLinkTag.noConfusion hc,
          hlive.1, hlive.2, hmemE, hL, hsz, hii, hform⟩
    · rw [if_neg hdp] at h
      rcases hadd : addLink (updNode st o
          (fun nd => { nd with Successors := nd.Successors.erase E }))
          (some n) (some E.1) TypeLinkTag.LK_Inheritance
          with _ | rpair
      · rw [hadd] at h
        exact Option.noConfusion h
      · obtain ⟨r, st2⟩ := rpair
        rw [hadd] at h
        injection h with h'
        rw [← hE2] at h'
        obtain ⟨hL, hsz, hii, hform⟩ :=
          moveEdge_endstate st o n E _ r st2 st' hadd h'.symm
        rw [hE2] at hform
        exact ⟨TypeLinkTag.LK_Inheritance,
          fun hc => TypeLinkTag.noConfusion hc,
          fun hej => ⟨rfl, lt_of_le_of_ne (not_lt.mp hdp) hd⟩,
          fun hc => TypeLinkTag.noConfusion hc,
          fun hc => TypeLinkTag.noConfusion hc,
          hlive.1, hlive.2, hmemE, hL, hsz, hii, hform⟩
  · rw [hE2] at h
    simp only [] at h
    exact Option.noConfusion h
  · rw [hE2] at h
    simp only [] at h
    by_cases hoff : OE.Offset + d < 0
    · rw [if_pos hoff] at h
      exact Option.noConfusion h
    rw [if_neg hoff] at h
    rcases hadd : addLink (updNode st o
        (fun nd => { nd with Successors := nd.Successors.erase E }))
        (some n) (some E.1)
        (TypeLinkTag.LK_Instance { OE with Offset := OE.Offset + d })
        with _ | rpair
    · rw [hadd] at h
      exact Option.noConfusion h
    · obtain ⟨r, st2⟩ := rpair
      rw [hadd] at h
      injection h with h'
      rw [← hE2] at h'
      obtain ⟨hL, hsz, hii, hform⟩ :=
        moveEdge_endstate st o n E _ r st2 st' hadd h'.symm
      rw [hE2] at hform
      refine ⟨TypeLinkTag.LK_Instance { OE with Offset := OE.Offset + d },
        fun hc => TypeLinkTag.noConfusion hc, ?_,
        fun hc => TypeLinkTag.noConfusion hc,
        fun hc => TypeLinkTag.noConfusion hc,
        hlive.1, hlive.2, hmemE, hL, hsz, hii, hform⟩
      intro heq
      injection heq with h3
      have h4 := congrArg OffsetExpression.Offset h3
      exact absurd (add_right_eq_self.mp h4) hd
  · rw [hE2] at h
    simp only [] at h
    exact Option.noConfusion h

theorem moveEdge_CM (st : LayoutTypeSystem) (o n : Option Nat) (E : Link)
    (d : Int) (st' : LayoutTypeSystem) (hc : Closed st) (hm : Mirrored st)
    (hP : ∀ s, o = some s → n = some s →
      E.2 = TypeLinkTag.LK_Inheritance → 0 ≤ d)
    (h : moveEdge st o n E d = some st') : Closed st' ∧ Mirrored st' := by
  cases o with
  | none =>
    simp only [moveEdge] at h
    injection h with h'
    subst h'
    exact ⟨hc, hm⟩
  | some o =>
    cases n with
    | none =>
      simp only [moveEdge] at h
      injection h with h'
      subst h'
      exact ⟨hc, hm⟩
    | some n =>
      by_cases hd : d = 0
      · simp only [moveEdge] at h
        rw [if_pos hd] at h
        exact mews_CM st o n E st' hc hm h
      · obtain ⟨NewTag, hNe, hNE2, hEe, hEp, ho, hT, hEs, hL, hsz, hii, hform⟩ :=
          moveEdge_sum_spec st o n E d st' hd h
        rcases hform with ⟨hnT, hS, hP2⟩ | ⟨hnT, hnL, hS, hP2⟩
        · constructor
          · intro x hx
            rw [hL] at hx ⊢
            constructor
            · intro p hp
              exact (hc x hx).1 p ((hS x p).mp hp).1
            · intro p hp
              exact (hc x hx).2 p ((hP2 x p).mp hp).1
          · intro x hx
            rw [hL] at hx
            constructor
            · intro p hp
              obtain ⟨hp2, himp⟩ := (hS x p).mp hp
              refine (hP2 p.1 (x, p.2)).mpr ⟨(hm x hx).1 p hp2, ?_⟩
              rintro ⟨h1, h2⟩
              rw [Prod.mk.injEq] at h2
              obtain ⟨rfl, h22⟩ := h2
              exact himp rfl (Prod.ext h1 h22)
            · intro p hp
              obtain ⟨hp2, hnand⟩ := (hP2 x p).mp hp
              refine (hS p.1 (x, p.2)).mpr ⟨(hm x hx).2 p hp2, ?_⟩
              intro hpo heq
              cases heq
              exact hnand ⟨rfl, Prod.ext hpo rfl⟩
        · have hNT : ¬(o = n ∧ NewTag = E.2) := by
            rintro ⟨rfl, hNeq⟩
            obtain ⟨hInh, hneg⟩ := hNE2 hNeq
            exact absurd (hP _ rfl rfl hInh) (not_le.mpr hneg)
          constructor
          · intro x hx
            rw [hL] at hx ⊢
            constructor
            · intro p hp
              rcases (hS x p).mp hp with ⟨rfl, rfl⟩ | ⟨hp2, -⟩
              · exact hT
              · exact (hc x hx).1 p hp2
            · intro p hp
              obtain ⟨-, hin⟩ := (hP2 x p).mp hp
              rcases hin with ⟨rfl, rfl⟩ | hp2
              · exact hnL
              · exact (hc x hx).2 p hp2
          · intro x hx
            rw [hL] at hx
            constructor
            · intro p hp
              rcases (hS x p).mp hp with ⟨rfl, rfl⟩ | ⟨hp2, himp⟩
              · refine (hP2 E.1 (x, NewTag)).mpr ⟨?_, Or.inl ⟨rfl, rfl⟩⟩
                rintro ⟨-, h2⟩
                rw [Prod.mk.injEq] at h2
                exact hNT ⟨h2.1.symm, h2.2⟩
              · refine (hP2 p.1 (x, p.2)).mpr
                  ⟨?_, Or.inr ((hm x hx).1 p hp2)⟩
                rintro ⟨h1, h2⟩
                rw [Prod.mk.injEq] at h2
                obtain ⟨rfl, h22⟩ := h2
                exact himp rfl (Prod.ext h1 h22)
            · intro p hp
              obtain ⟨hnand, hin⟩ := (hP2 x p).mp hp
              rcases hin with ⟨rfl, rfl⟩ | hp2
              · exact (hS n (E.1, NewTag)).mpr (Or.inl ⟨rfl, rfl⟩)
              · refine (hS p.1 (x, p.2)).mpr
                  (Or.inr ⟨(hm x hx).2 p hp2, ?_⟩)
                intro hpo heq
                cases heq
                exact hnand ⟨rfl, Prod.ext hpo rfl⟩

theorem moveEdge_NS (st : LayoutTypeSystem) (o n : Option Nat) (E : Link)
    (d : Int) (st' : LayoutTypeSystem) (hns : NoSelfEdges st)
    (hP : ∀ m, n = some m → d = 0 → m ≠ E.1)
    (h : moveEdge st o n E d = some st') : NoSelfEdges st' := by
  cases o with
  | none =>
    simp only [moveEdge] at h
    injection h with h'
    subst h'
    exact hns
  | some o =>
    cases n with
    | none =>
      simp only [moveEdge] at h
      injection h with h'
      subst h'
      exact hns
    | some n =>
      by_cases hd : d = 0
      · simp only [moveEdge] at h
        rw [if_pos hd] at h
        exact mews_NS st o n E st' hns (hP n rfl hd) h
      · obtain ⟨NewTag, hNe, hNE2, hEe, hEp, ho, hT, hEs, hL, hsz, hii, hform⟩ :=
          moveEdge_sum_spec st o n E d st' hd h
        rcases hform with ⟨hnT, hS, hP2⟩ | ⟨hnT, hnL, hS, hP2⟩
        · intro x hx
          rw [hL] at hx
          constructor
          · intro p hp
            exact (hns x hx).1 p ((hS x p).mp hp).1
          · intro p hp
            exact (hns x hx).2 p ((hP2 x p).mp hp).1
        · intro x hx
          rw [hL] at hx
          constructor
          · intro p hp
            rcases (hS x p).mp hp with ⟨rfl, rfl⟩ | ⟨hp2, -⟩
            · exact fun he2 => hnT (he2 ▸ rfl)
            · exact (hns x hx).1 p hp2
          · intro p hp
            obtain ⟨-, hin⟩ := (hP2 x p).mp hp
            rcases hin with ⟨rfl, rfl⟩ | hp2
            · exact hnT
            · exact (hns x hx).2 p hp2

theorem moveEdge_EqSym (st : LayoutTypeSystem) (o n : Option Nat) (E : Link)
    (d : Int) (st' : LayoutTypeSystem) (he : EqSym st)
    (hP : ∀ s t, o = some s → n = some t → E.2 ≠ TypeLinkTag.LK_Equality)
    (h : moveEdge st o n E d = some st') : EqSym st' := by
  cases o with
  | none =>
    simp only [moveEdge] at h
    injection h with h'
    subst h'
    exact he
  | some o =>
    cases n with
    | none =>
      simp only [moveEdge] at h
      injection h with h'
      subst h'
      exact he
    | some n =>
      by_cases hd : d = 0
      · simp only [moveEdge] at h
        rw [if_pos hd] at h
        exact mews_EqSym st o n E st' he (hP o n rfl rfl) h
      · obtain ⟨NewTag, hNe, hNE2, hEe, hEp, ho, hT, hEs, hL, hsz, hii, hform⟩ :=
          moveEdge_sum_spec st o n E d st' hd h
        have key : ∀ u v : Nat,
            ((v, TypeLinkTag.LK_Equality) ∈ succs st' u ↔
              (v, TypeLinkTag.LK_Equality) ∈ succs st u) := by
          intro u v
          rcases hform with ⟨-, hS, -⟩ | ⟨-, -, hS, -⟩
          · rw [hS u (v, TypeLinkTag.LK_Equality)]
            constructor
            · exact fun hp => hp.1
            · intro hp
              refine ⟨hp, fun _ heq => ?_⟩
              exact hEe (congrArg Prod.snd heq).symm
          · rw [hS u (v, TypeLinkTag.LK_Equality)]
            constructor
            · rintro (⟨-, heq⟩ | ⟨hp, -⟩)
              · exact absurd (congrArg Prod.snd heq).symm hNe
              · exact hp
            · intro hp
              refine Or.inr ⟨hp, fun _ heq => ?_⟩
              exact hEe (congrArg Prod.snd heq).symm
        intro a ha b hb
        rw [hL] at ha hb
        rw [key a b, key b a]
        exact he a ha b hb

/-!
## addEqualityLink preservation
-/

theorem addEqualityLink_cases (st : LayoutTypeSystem) (a b : Option Nat)
    (r : Option TypeLinkTag × Bool) (st' : LayoutTypeSystem)
    (h : addEqualityLink st a b = some (r, st')) :
    ∃ r1 st1 r2, addLink st a b TypeLinkTag.LK_Equality = some (r1, st1) ∧
      addLink st1 b a TypeLinkTag.LK_Equality = some (r2, st') := by
  simp only [addEqualityLink] at h
  rcases h1 : addLink st a b TypeLinkTag.LK_Equality with _ | p1
  · rw [h1] at h
    exact Option.noConfusion h
  · obtain ⟨fwd, st1⟩ := p1
    simp only [h1] at h
    rcases h2 : addLink st1 b a TypeLinkTag.LK_Equality with _ | p2
    · rw [h2] at h
      exact Option.noConfusion h
    · obtain ⟨bwd, st2⟩ := p2
      simp only [h2] at h
      split at h
      · injection h with h'
        rw [Prod.mk.injEq] at h'
        obtain ⟨-, h22⟩ := h'
        subst h22
        exact ⟨fwd, st1, bwd, rfl, h2⟩
      · exact Option.noConfusion h

theorem addEqualityLink_CM (st : LayoutTypeSystem) (a b : Option Nat)
    (r : Option TypeLinkTag × Bool) (st' : LayoutTypeSystem)
    (hc : Closed st) (hm : Mirrored st)
    (h : addEqualityLink st a b = some (r, st')) :
    Closed st' ∧ Mirrored st' := by
  obtain ⟨r1, st1, r2, h1, h2⟩ := addEqualityLink_cases st a b r st' h
  obtain ⟨hc1, hm1⟩ := addLink_CM st a b TypeLinkTag.LK_Equality r1 st1 hc hm h1
  exact addLink_CM st1 b a TypeLinkTag.LK_Equality r2 st' hc1 hm1 h2

theorem addEqualityLink_NS (st : LayoutTypeSystem) (a b : Option Nat)
    (r : Option TypeLinkTag × Bool) (st' : LayoutTypeSystem)
    (hns : NoSelfEdges st) (h : addEqualityLink st a b = some (r, st')) :
    NoSelfEdges st' := by
  obtain ⟨r1, st1, r2, h1, h2⟩ := addEqualityLink_cases st a b r st' h
  exact addLink_NS st1 b a TypeLinkTag.LK_Equality r2 st'
    (addLink_NS st a b TypeLinkTag.LK_Equality r1 st1 hns h1) h2

theorem addEqualityLink_EqSym (st : LayoutTypeSystem) (a b : Option Nat)
    (r : Option TypeLinkTag × Bool) (st' : LayoutTypeSystem)
    (he : EqSym st) (h : addEqualityLink st a b = some (r, st')) :
    EqSym st' := by
  cases a with
  | none =>
    cases b with
    | none =>
      simp only [addEqualityLink, addLink, eq_self_iff_true, if_true] at h
      injection h with h'
      rw [Prod.mk.injEq] at h'
      obtain ⟨-, h22⟩ := h'
      subst h22
      exact he
    | some t =>
      simp only [addEqualityLink, addLink, eq_self_iff_true, if_true] at h
      injection h with h'
      rw [Prod.mk.injEq] at h'
      obtain ⟨-, h22⟩ := h'
      subst h22
      exact he
  | some s =>
    cases b with
    | none =>
      simp only [addEqualityLink, addLink, eq_self_iff_true, if_true] at h
      injection h with h'
      rw [Prod.mk.injEq] at h'
      obtain ⟨-, h22⟩ := h'
      subst h22
      exact he
    | some t =>
      by_cases hst : s = t
      · subst hst
        simp only [addEqualityLink, addLink, eq_self_iff_true, if_true] at h
        injection h with h'
        rw [Prod.mk.injEq] at h'
        obtain ⟨-, h22⟩ := h'
        subst h22
        exact he
      · by_cases hlv : s ∈ st.Layouts ∧ t ∈ st.Layouts
        · obtain ⟨r1, st1, r2, h1, h2⟩ := addEqualityLink_cases st _ _ r st' h
          rw [addLink_eq st s t TypeLinkTag.LK_Equality hst hlv.1 hlv.2] at h1
          injection h1 with h1'
          rw [Prod.mk.injEq] at h1'
          obtain ⟨-, h12⟩ := h1'
          subst h12
          rw [addLink_eq _ t s TypeLinkTag.LK_Equality
            (Ne.symm hst) (by exact hlv.2) (by exact hlv.1)] at h2
          injection h2 with h2'
          rw [Prod.mk.injEq] at h2'
          obtain ⟨-, h22⟩ := h2'
          have form : ∀ y w : Nat,
              ((w, TypeLinkTag.LK_Equality) ∈ succs st' y ↔
                ((y = t ∧ w = s) ∨ (y = s ∧ w = t) ∨
                  (w, TypeLinkTag.LK_Equality) ∈ succs st y)) := by
            intro y w
            rw [← h22]
            rw [succs_addLink_state _ t s TypeLinkTag.LK_Equality
              (Ne.symm hst) y,
              succs_addLink_state st s t TypeLinkTag.LK_Equality hst t,
              succs_addLink_state st s t TypeLinkTag.LK_Equality hst y]
            rw [if_neg (Ne.symm hst)]
            by_cases hyt : y = t
            · rw [if_pos hyt, Finset.mem_insert]
              constructor
              · rintro (heq | hp)
                · rw [Prod.mk.injEq] at heq
                  exact Or.inl ⟨hyt, heq.1⟩
                · refine Or.inr (Or.inr ?_)
                  rw [hyt]
                  exact hp
              · rintro (⟨-, rfl⟩ | ⟨hys, -⟩ | hp)
                · exact Or.inl rfl
                · exact absurd (hyt.symm.trans hys) (Ne.symm hst)
                · refine Or.inr ?_
                  rw [← hyt]
                  exact hp
            · rw [if_neg hyt]
              by_cases hys : y = s
              · rw [if_pos hys, Finset.mem_insert]
                constructor
                · rintro (heq | hp)
                  · rw [Prod.mk.injEq] at heq
                    exact Or.inr (Or.inl ⟨hys, heq.1⟩)
                  · refine Or.inr (Or.inr ?_)
                    rw [hys]
                    exact hp
                · rintro (⟨hyt2, -⟩ | ⟨-, rfl⟩ | hp)
                  · exact absurd hyt2 hyt
                  · exact Or.inl rfl
                  · refine Or.inr ?_
                    rw [← hys]
                    exact hp
              · rw [if_neg hys]
                constructor
                · intro hp
                  exact Or.inr (Or.inr hp)
                · rintro (⟨hyt2, -⟩ | ⟨hys2, -⟩ | hp)
                  · exact absurd hyt2 hyt
                  · exact absurd hys2 hys
                  · exact hp
          have hLs : st'.Layouts = st.Layouts := by
            rw [← h22]
            rfl
          intro u hu v hv
          rw [hLs] at hu hv
          have huL : u ∈ st.Layouts := hu
          have hvL : v ∈ st.Layouts := hv
          rw [form u v, form v u]
          constructor
          · rintro (⟨hut, hvs⟩ | ⟨hus, hvt⟩ | hp)
            · exact Or.inr (Or.inl ⟨hvs, hut⟩)
            · exact Or.inl ⟨hvt, hus⟩
            · exact Or.inr (Or.inr ((he u huL v hvL).mp hp))
          · rintro (⟨hvt, hus⟩ | ⟨hvs, hut⟩ | hp)
            · exact Or.inr (Or.inl ⟨hus, hvt⟩)
            · exact Or.inl ⟨hut, hvs⟩
            · exact Or.inr (Or.inr ((he u huL v hvL).mpr hp))
        · exfalso
          have hnone : addLink st (some s) (some t)
              TypeLinkTag.LK_Equality = none := by
            simp only [addLink]
            rw [if_neg hst, if_neg hlv]
          obtain ⟨r1, st1, r2, h1, h2⟩ := addEqualityLink_cases st _ _ r st' h
          rw [hnone] at h1
          exact Option.noConfusion h1

/-- In a closed, mirrored, equality-symmetric graph, the two insertions
performed by `addEqualityLink` on distinct live nodes report identical
results, so the internal assertion holds and the call succeeds. -/
theorem addEqualityLink_isSome (st : LayoutTypeSystem) (A B : Nat)
    (hc : Closed st) (hm : Mirrored st) (he : EqSym st)
    (hA : A ∈ st.Layouts) (hB : B ∈ st.Layouts) (hAB : A ≠ B) :
    (addEqualityLink st (some A) (some B)).isSome = true := by
  have h2 := addLink_eq (updNode (updNode
      { st with LinkTags := insert TypeLinkTag.LK_Equality st.LinkTags } A
      (fun nd =>
        { nd with Successors :=
            insert (B, TypeLinkTag.LK_Equality) nd.Successors })) B
      (fun nd =>
        { nd with Predecessors :=
            insert (A, TypeLinkTag.LK_Equality) nd.Predecessors }))
    B A TypeLinkTag.LK_Equality (Ne.symm hAB) (by exact hB) (by exact hA)
  simp only [addEqualityLink,
    addLink_eq st A B TypeLinkTag.LK_Equality hAB hA hB, h2]
  rw [succs_addLink_state st A B TypeLinkTag.LK_Equality hAB B,
    preds_addLink_state st A B TypeLinkTag.LK_Equality hAB A]
  rw [if_neg (Ne.symm hAB), if_neg hAB]
  have hiff1 : ((B, TypeLinkTag.LK_Equality) ∈ succs st A) ↔
      ((A, TypeLinkTag.LK_Equality) ∈ succs st B) := he A hA B hB
  have hmir1 : ((B, TypeLinkTag.LK_Equality) ∈ succs st A) ↔
      ((A, TypeLinkTag.LK_Equality) ∈ preds st B) :=
    ⟨fun hh => (hm A hA).1 (B, TypeLinkTag.LK_Equality) hh,
     fun hh => (hm B hB).2 (A, TypeLinkTag.LK_Equality) hh⟩
  have hmir2 : ((A, TypeLinkTag.LK_Equality) ∈ succs st B) ↔
      ((B, TypeLinkTag.LK_Equality) ∈ preds st A) :=
    ⟨fun hh => (hm B hB).1 (A, TypeLinkTag.LK_Equality) hh,
     fun hh => (hm A hA).2 (B, TypeLinkTag.LK_Equality) hh⟩
  have e1 : decide ((B, TypeLinkTag.LK_Equality) ∉ succs st A) =
      decide ((A, TypeLinkTag.LK_Equality) ∉ succs st B) :=
    decide_eq_decide.mpr (not_congr hiff1)
  have e2 : decide ((A, TypeLinkTag.LK_Equality) ∉ preds st B) =
      decide ((B, TypeLinkTag.LK_Equality) ∉ preds st A) :=
    decide_eq_decide.mpr (not_congr (hmir1.symm.trans (hiff1.trans hmir2)))
  rw [e1, e2, if_pos rfl]
  rfl

/-- Adding a link with a non-equality tag leaves the equality-edge relation
untouched, so `EqSym` is preserved. -/
theorem addLink_EqSym (st : LayoutTypeSystem) (a b : Option Nat)
    (Tag : TypeLinkTag) (r : Option TypeLinkTag × Bool)
    (st' : LayoutTypeSystem) (he : EqSym st)
    (hT : Tag ≠ TypeLinkTag.LK_Equality)
    (h : addLink st a b Tag = some (r, st')) : EqSym st' := by
  rcases addLink_spec st a b Tag r st' h with rfl |
    ⟨s, t, -, -, hst, hs, ht, hL, hS, hP⟩
  · exact he
  have key : ∀ y w : Nat,
      ((w, TypeLinkTag.LK_Equality) ∈ succs st' y ↔
        (w, TypeLinkTag.LK_Equality) ∈ succs st y) := by
    intro y w
    rw [hS y]
    by_cases hys : y = s
    · rw [if_pos hys, Finset.mem_insert]
      constructor
      · rintro (heq | hp)
        · exact absurd (congrArg Prod.snd heq).symm hT
        · rw [hys]
          exact hp
      · intro hp
        refine Or.inr ?_
        rw [← hys]
        exact hp
    · rw [if_neg hys]
  intro u hu v hv
  rw [hL] at hu hv
  rw [key u v, key v u]
  exact he u hu v hv

/-!
## Call-discipline predicates and the invariant induction
-/

/-- Calling discipline under which adjacency mirroring is preserved:
`moveEdge` is never called with `OldSrc = NewSrc` on an `Inheritance` edge
with negative `OffsetToSum`. -/
def P3 : Op → Prop
  | .moveE (some o) (some n) e d =>
      o = n → e.2 = TypeLinkTag.LK_Inheritance → 0 ≤ d
  | _ => True

/-- Calling discipline under which self-edge freedom is preserved:
`moveEdge` with `OffsetToSum = 0` is never called with `NewSrc` equal to the
moved edge's target. -/
def P4 : Op → Prop
  | .moveE _ (some n) e d => d = 0 → n ≠ e.1
  | _ => True

/-- Calling discipline under which the symmetry of equality edges (and hence
the internal assertion of `addEqualityLink`) is preserved: the discipline of
`P3`, and `moveEdge` is never applied to an `Equality` edge. -/
def P9 : Op → Prop
  | .moveE (some o) (some n) e d =>
      (o = n → e.2 = TypeLinkTag.LK_Inheritance → 0 ≤ d) ∧
        e.2 ≠ TypeLinkTag.LK_Equality
  | _ => True

instance (op : Op) : Decidable (P3 op) := by
  unfold P3
  split <;> infer_instance

instance (op : Op) : Decidable (P4 op) := by
  unfold P4
  split <;> infer_instance

instance (op : Op) : Decidable (P9 op) := by
  unfold P9
  split <;> infer_instance

theorem step_CM (st : LayoutTypeSystem) (op : Op) (st' : LayoutTypeSystem)
    (hc : Closed st) (hm : Mirrored st) (hP : P3 op)
    (h : step st op = some st') : Closed st' ∧ Mirrored st' := by
  cases op with
  | createN =>
    simp only [step] at h
    rcases hcr : createArtificialLayoutType st with _ | p
    · rw [hcr] at h
      exact Option.noConfusion h
    · obtain ⟨m, st1⟩ := p
      rw [hcr] at h
      injection h with h'
      subst h'
      exact create_CM st m st1 hc hm hcr
  | addEq a b =>
    simp only [step] at h
    rcases hae : addEqualityLink st a b with _ | p
    · rw [hae] at h
      exact Option.noConfusion h
    · obtain ⟨r, st1⟩ := p
      rw [hae] at h
      injection h with h'
      subst h'
      exact addEqualityLink_CM st a b r st1 hc hm hae
  | addInh a b =>
    simp only [step, addInheritanceLink] at h
    rcases hal : addLink st a b TypeLinkTag.LK_Inheritance with _ | p
    · rw [hal] at h
      exact Option.noConfusion h
    · obtain ⟨r, st1⟩ := p
      rw [hal] at h
      injection h with h'
      subst h'
      exact addLink_CM st a b TypeLinkTag.LK_Inheritance r st1 hc hm hal
  | addInst a b oe =>
    simp only [step, addInstanceLink] at h
    rcases hal : addLink st a b (TypeLinkTag.LK_Instance oe) with _ | p
    · rw [hal] at h
      exact Option.noConfusion h
    · obtain ⟨r, st1⟩ := p
      rw [hal] at h
      injection h with h'
      subst h'
      exact addLink_CM st a b (TypeLinkTag.LK_Instance oe) r st1 hc hm hal
  | addPtr a b =>
    simp only [step, addPointerLink] at h
    rcases hal : addLink st a b TypeLinkTag.LK_Pointer with _ | p
    · rw [hal] at h
      exact Option.noConfusion h
    · obtain ⟨r, st1⟩ := p
      rw [hal] at h
      injection h with h'
      subst h'
      exact addLink_CM st a b TypeLinkTag.LK_Pointer r st1 hc hm hal
  | mergeN l =>
    simp only [step] at h
    exact mergeNodes_CM st l st' hc hm h
  | removeN m =>
    simp only [step] at h
    exact removeNode_CM st m st' hc hm h
  | moveE o n e d =>
    simp only [step] at h
    refine moveEdge_CM st o n e d st' hc hm ?_ h
    intro s hso hsn hinh
    subst hso
    subst hsn
    exact hP rfl hinh

theorem step_NS (st : LayoutTypeSystem) (op : Op) (st' : LayoutTypeSystem)
    (hns : NoSelfEdges st) (hP : P4 op)
    (h : step st op = some st') : NoSelfEdges st' := by
  cases op with
  | createN =>
    simp only [step] at h
    rcases hcr : createArtificialLayoutType st with _ | p
    · rw [hcr] at h
      exact Option.noConfusion h
    · obtain ⟨m, st1⟩ := p
      rw [hcr] at h
      injection h with h'
      subst h'
      exact create_NS st m st1 hns hcr
  | addEq a b =>
    simp only [step] at h
    rcases hae : addEqualityLink st a b with _ | p
    · rw [hae] at h
      exact Option.noConfusion h
    · obtain ⟨r, st1⟩ := p
      rw [hae] at h
      injection h with h'
      subst h'
      exact addEqualityLink_NS st a b r st1 hns hae
  | addInh a b =>
    simp only [step, addInheritanceLink] at h
    rcases hal : addLink st a b TypeLinkTag.LK_Inheritance with _ | p
    · rw [hal] at h
      exact Option.noConfusion h
    · obtain ⟨r, st1⟩ := p
      rw [hal] at h
      injection h with h'
      subst h'
      exact addLink_NS st a b TypeLinkTag.LK_Inheritance r st1 hns hal
  | addInst a b oe =>
    simp only [step, addInstanceLink] at h
    rcases hal : addLink st a b (TypeLinkTag.LK_Instance oe) with _ | p
    · rw [hal] at h
      exact Option.noConfusion h
    · obtain ⟨r, st1⟩ := p
      rw [hal] at h
      injection h with h'
      subst h'
      exact addLink_NS st a b (TypeLinkTag.LK_Instance oe) r st1 hns hal
  | addPtr a b =>
    simp only [step, addPointerLink] at h
    rcases hal : addLink st a b TypeLinkTag.LK_Pointer with _ | p
    · rw [hal] at h
      exact Option.noConfusion h
    · obtain ⟨r, st1⟩ := p
      rw [hal] at h
      injection h with h'
      subst h'
      exact addLink_NS st a b TypeLinkTag.LK_Pointer r st1 hns hal
  | mergeN l =>
    simp only [step] at h
    exact mergeNodes_NS st l st' hns h
  | removeN m =>
    simp only [step] at h
    exact removeNode_NS st m st' hns h
  | moveE o n e d =>
    simp only [step] at h
    refine moveEdge_NS st o n e d st' hns ?_ h
    intro m hnm hd0
    subst hnm
    exact hP hd0

theorem step_CME (st : LayoutTypeSystem) (op : Op) (st' : LayoutTypeSystem)
    (hc : Closed st) (hm : Mirrored st) (he : EqSym st) (hP : P9 op)
    (h : step st op = some st') :
    Closed st' ∧ Mirrored st' ∧ EqSym st' := by
  cases op with
  | createN =>
    simp only [step] at h
    rcases hcr : createArtificialLayoutType st with _ | p
    · rw [hcr] at h
      exact Option.noConfusion h
    · obtain ⟨m, st1⟩ := p
      rw [hcr] at h
      injection h with h'
      subst h'
      obtain ⟨hc', hm'⟩ := create_CM st m st1 hc hm hcr
      exact ⟨hc', hm', create_EqSym st m st1 hc he hcr⟩
  | addEq a b =>
    simp only [step] at h
    rcases hae : addEqualityLink st a b with _ | p
    · rw [hae] at h
      exact Option.noConfusion h
    · obtain ⟨r, st1⟩ := p
      rw [hae] at h
      injection h with h'
      subst h'
      obtain ⟨hc', hm'⟩ := addEqualityLink_CM st a b r st1 hc hm hae
      exact ⟨hc', hm', addEqualityLink_EqSym st a b r st1 he hae⟩
  | addInh a b =>
    simp only [step, addInheritanceLink] at h
    rcases hal : addLink st a b TypeLinkTag.LK_Inheritance with _ | p
    · rw [hal] at h
      exact Option.noConfusion h
    · obtain ⟨r, st1⟩ := p
      rw [hal] at h
      injection h with h'
      subst h'
      obtain ⟨hc', hm'⟩ :=
        addLink_CM st a b TypeLinkTag.LK_Inheritance r st1 hc hm hal
      exact ⟨hc', hm', addLink_EqSym st a b TypeLinkTag.LK_Inheritance r st1
        he (fun hq => TypeLinkTag.noConfusion hq) hal⟩
  | addInst a b oe =>
    simp only [step, addInstanceLink] at h
    rcases hal : addLink st a b (TypeLinkTag.LK_Instance oe) with _ | p
    · rw [hal] at h
      exact Option.noConfusion h
    · obtain ⟨r, st1⟩ := p
      rw [hal] at h
      injection h with h'
      subst h'
      obtain ⟨hc', hm'⟩ :=
        addLink_CM st a b (TypeLinkTag.LK_Instance oe) r st1 hc hm hal
      exact ⟨hc', hm', addLink_EqSym st a b (TypeLinkTag.LK_Instance oe) r st1
        he (fun hq => TypeLinkTag.noConfusion hq) hal⟩
  | addPtr a b =>
    simp only [step, addPointerLink] at h
    rcases hal : addLink st a b TypeLinkTag.LK_Pointer with _ | p
    · rw [hal] at h
      exact Option.noConfusion h
    · obtain ⟨r, st1⟩ := p
      rw [hal] at h
      injection h with h'
      subst h'
      obtain ⟨hc', hm'⟩ :=
        addLink_CM st a b TypeLinkTag.LK_Pointer r st1 hc hm hal
      exact ⟨hc', hm', addLink_EqSym st a b TypeLinkTag.LK_Pointer r st1
        he (fun hq => TypeLinkTag.noConfusion hq) hal⟩
  | mergeN l =>
    simp only [step] at h
    exact mergeNodes_CME st l st' hc hm he h
  | removeN m =>
    simp only [step] at h
    obtain ⟨hc', hm'⟩ := removeNode_CM st m st' hc hm h
    exact ⟨hc', hm', removeNode_EqSym st m st' hc hm he h⟩
  | moveE o n e d =>
    simp only [step] at h
    have h1 : ∀ s, o = some s → n = some s →
        e.2 = TypeLinkTag.LK_Inheritance → 0 ≤ d := by
      intro s hso hsn
      subst hso
      subst hsn
      exact hP.1 rfl
    have h2 : ∀ s t, o = some s → n = some t →
        e.2 ≠ TypeLinkTag.LK_Equality := by
      intro s t hso hsn
      subst hso
      subst hsn
      exact hP.2
    obtain ⟨hc', hm'⟩ := moveEdge_CM st o n e d st' hc hm h1 h
    exact ⟨hc', hm', moveEdge_EqSym st o n e d st' he h2 h⟩

theorem runFrom_inv (Inv : LayoutTypeSystem → Prop) (P : Op → Prop)
    (hstep : ∀ st op st1, Inv st → P op → step st op = some st1 → Inv st1) :
    ∀ (l : List Op) (st st' : LayoutTypeSystem), Inv st →
      (∀ op ∈ l, P op) → runFrom st l = some st' → Inv st' := by
  intro l
  induction l with
  | nil =>
    intro st st' hInv hP h
    injection h with h'
    subst h'
    exact hInv
  | cons op rest ih =>
    intro st st' hInv hP h
    simp only [runFrom] at h
    rcases hstep1 : step st op with _ | st1
    · rw [hstep1] at h
      exact Option.noConfusion h
    · simp only [hstep1] at h
      exact ih st1 st'
        (hstep st op st1 hInv (hP op (List.mem_cons_self op rest)) hstep1)
        (fun op2 hop2 => hP op2 (List.mem_cons_of_mem op hop2)) h

theorem ReachP_inv (Inv : LayoutTypeSystem → Prop) (P : Op → Prop)
    (hstep : ∀ st op st1, Inv st → P op → step st op = some st1 → Inv st1)
    (hinit : Inv initState) (st : LayoutTypeSystem) (h : ReachP P st) :
    Inv st := by
  obtain ⟨l, hl, hrun⟩ := h
  exact runFrom_inv Inv P hstep l initState st hinit hl hrun

/-!
## Claims C3, C4, C9, C10
-/

/-- Claim C3 (amended): adjacency mirroring is an invariant of every graph
state reachable through the mutation API, provided `moveEdge` is never called
with `OldSrc = NewSrc` on an `Inheritance` edge with negative `OffsetToSum`:
for every live node `A` with `(B, T)` in its successors, `(A, T)` is in `B`'s
predecessors, and symmetrically. -/
theorem reachable_mirrored (st : LayoutTypeSystem) (h : ReachP P3 st) :
    Mirrored st := by
  have hinv := ReachP_inv (fun s => Closed s ∧ Mirrored s) P3
    (fun s op s1 hi hp hs => step_CM s op s1 hi.1 hi.2 hp hs)
    ⟨by decide, by decide⟩ st h
  exact hinv.2

def wGood : List Op := [.createN, .createN, .addInh (some 0) (some 1)]

theorem reachable_mirrored_witness :
    Mirrored ((runOps wGood).getD initState) :=
  reachable_mirrored ((runOps wGood).getD initState)
    ⟨wGood, by decide, by rfl⟩

def opsC3 : List Op :=
  [.createN, .createN, .addInh (some 0) (some 1),
    .moveE (some 0) (some 0) (1, .LK_Inheritance) (-1)]

/-- The original claim C3 is false: moving the inheritance edge `0 → 1` onto
its own source with `OffsetToSum = -1` re-adds the edge to node 0's
successors but then strips the freshly inserted mirrored predecessor entry of
node 1, leaving an unmirrored successor edge. -/
theorem reachable_mirrored_cex :
    ReachP (fun _ => True) ((runOps opsC3).getD initState) ∧
      ¬ Mirrored ((runOps opsC3).getD initState) :=
  ⟨⟨opsC3, fun _ _ => trivial, by rfl⟩, by decide⟩

/-- Claim C4 (amended): no reachable graph state contains a self-edge,
provided `moveEdge` with `OffsetToSum = 0` is never called with `NewSrc`
equal to the moved edge's target. -/
theorem reachable_noSelfEdges (st : LayoutTypeSystem) (h : ReachP P4 st) :
    NoSelfEdges st :=
  ReachP_inv NoSelfEdges P4
    (fun s op s1 hi hp hs => step_NS s op s1 hi hp hs)
    (by decide) st h

theorem reachable_noSelfEdges_witness :
    NoSelfEdges ((runOps wGood).getD initState) :=
  reachable_noSelfEdges ((runOps wGood).getD initState)
    ⟨wGood, by decide, by rfl⟩

def opsC4 : List Op :=
  [.createN, .createN, .addInst (some 0) (some 1) (.ofOffset 0),
    .moveE (some 0) (some 1) (1, instance0) 0]

/-- The original claim C4 is false: `moveEdge` with `OffsetToSum = 0` moving
the instance edge `0 → 1` onto the target node 1 itself makes node 1 its own
successor and predecessor. -/
theorem reachable_noSelfEdges_cex :
    ReachP (fun _ => True) ((runOps opsC4).getD initState) ∧
      ¬ NoSelfEdges ((runOps opsC4).getD initState) :=
  ⟨⟨opsC4, fun _ _ => trivial, by rfl⟩, by decide⟩

/-- Claim C9 (amended): in every state reachable through the mutation API
under the discipline that `moveEdge` is never applied to an `Equality` edge
and never called with `OldSrc = NewSrc` on an `Inheritance` edge with
negative `OffsetToSum`, the internal assertion of `addEqualityLink` on two
distinct live nodes holds: the insertions in the two directions report
identical results and the call succeeds. -/
theorem reachable_addEqualityLink_ok (st : LayoutTypeSystem) (A B : Nat)
    (h : ReachP P9 st) (hA : A ∈ st.Layouts) (hB : B ∈ st.Layouts)
    (hAB : A ≠ B) :
    (addEqualityLink st (some A) (some B)).isSome = true := by
  have hinv := ReachP_inv (fun s => Closed s ∧ Mirrored s ∧ EqSym s) P9
    (fun s op s1 hi hp hs => step_CME s op s1 hi.1 hi.2.1 hi.2.2 hp hs)
    ⟨by decide, by decide, by decide⟩ st h
  exact addEqualityLink_isSome st A B hinv.1 hinv.2.1 hinv.2.2 hA hB hAB

theorem reachable_addEqualityLink_ok_witness :
    (addEqualityLink ((runOps wGood).getD initState)
      (some 0) (some 1)).isSome = true :=
  reachable_addEqualityLink_ok ((runOps wGood).getD initState) 0 1
    ⟨wGood, by decide, by rfl⟩ (by decide) (by decide) (by decide)

def opsC9 : List Op :=
  [.createN, .createN, .createN, .addEq (some 0) (some 1),
    .moveE (some 0) (some 2) (1, .LK_Equality) 0]

/-- The original claim C9 is false: after moving the equality successor edge
`0 → 1` to node 2, the reverse equality edge `1 → 0` is left behind, so
`addEqualityLink 0 1` computes different newly-inserted flags in the two
directions and its internal assertion fails. -/
theorem reachable_addEqualityLink_cex :
    ReachP (fun _ => True) ((runOps opsC9).getD initState) ∧
      0 ∈ ((runOps opsC9).getD initState).Layouts ∧
      1 ∈ ((runOps opsC9).getD initState).Layouts ∧
      (0 : Nat) ≠ 1 ∧
      (addEqualityLink ((runOps opsC9).getD initState)
        (some 0) (some 1)).isNone = true :=
  ⟨⟨opsC9, fun _ _ => trivial, by rfl⟩, by decide, by decide, by decide,
    by rfl⟩

/-- Claim C10: on a closed mirrored graph, `removeNode n` for a live `n`
modifies only what involves `n`: afterwards no surviving node's adjacency
sets mention `n`, every adjacency entry not mentioning `n` is kept, every
node's `Size` and `InterferingInfo` and the deduplicated tag set are
unchanged, and `n` alone is dropped from the live set. -/
theorem removeNode_frame (st : LayoutTypeSystem) (n : Nat)
    (st' : LayoutTypeSystem) (hc : Closed st) (hm : Mirrored st)
    (h : removeNode st n = some st') :
    st'.Layouts = st.Layouts.erase n ∧ st'.LinkTags = st.LinkTags ∧
    ∀ x ∈ st'.Layouts,
      (∀ p ∈ succs st' x, p.1 ≠ n) ∧ (∀ p ∈ preds st' x, p.1 ≠ n) ∧
      (∀ p : Link, p.1 ≠ n → (p ∈ succs st' x ↔ p ∈ succs st x)) ∧
      (∀ p : Link, p.1 ≠ n → (p ∈ preds st' x ↔ p ∈ preds st x)) ∧
      (st'.nodes x).Size = (st.nodes x).Size ∧
      (st'.nodes x).InterferingInfo = (st.nodes x).InterferingInfo := by
  obtain ⟨hn, hL, hlt, -, hsz, hii, -, -, -, -⟩ := removeNode_spec st n st' h
  have hmem := removeNode_mem st n st' hc hm h
  refine ⟨hL, hlt, ?_⟩
  intro x hx
  rw [hL] at hx
  obtain ⟨hxn, hxL⟩ := Finset.mem_erase.mp hx
  obtain ⟨hsx, hpx⟩ := hmem x hxL hxn
  refine ⟨?_, ?_, ?_, ?_, hsz x, hii x⟩
  · intro p hp
    rw [hsx, Finset.mem_filter] at hp
    exact hp.2
  · intro p hp
    rw [hpx, Finset.mem_filter] at hp
    exact hp.2
  · intro p hpn
    rw [hsx, Finset.mem_filter]
    exact ⟨fun hh => hh.1, fun hh => ⟨hh, hpn⟩⟩
  · intro p hpn
    rw [hpx, Finset.mem_filter]
    exact ⟨fun hh => hh.1, fun hh => ⟨hh, hpn⟩⟩

def c10st : LayoutTypeSystem := (runOps wGood).getD initState

def c10st' : LayoutTypeSystem := (removeNode c10st 1).getD initState

theorem removeNode_frame_witness :
    (Closed c10st ∧ Mirrored c10st) ∧
      c10st'.Layouts = c10st.Layouts.erase 1 :=
  ⟨⟨by decide, by decide⟩,
    (removeNode_frame c10st 1 c10st' (by decide) (by decide) (by rfl)).1⟩

end DLA
